import Mathlib

/-!
Verification of the table-normalization rules of `slate-edit-table`.

The embedding follows `src/lib/schema/validateNode.js` (the active rule
pipeline: `rowsContainRequiredColumns`, `tableContainAlignData`, plus the
optional `tablesContainOnlyRows`) and `src/lib/makeSchema.js` (the legacy
rule set).  Slate nodes are modelled as rose trees with a `type` tag, a
`key` identity, ordered `nodes` children, and the single `data` entry used
by the code (`align`).  The by-key edit operations of the host editor
(`removeNodeByKey`, `insertNodeByKey`, `setNodeByKey`) are external to the
repository; their application semantics is modelled from the spec's
external-interface section (edits address nodes purely by key).  A JS
exception (reading a property of `undefined`) is modelled as `Except.error`.
-/

namespace SlateEditTable

/-- Configuration of the plugin: the string tags identifying table, row and
cell nodes (`opts.typeTable`, `opts.typeRow`, `opts.typeCell`). -/
structure Options where
  typeTable : String
  typeRow : String
  typeCell : String

/-- A Slate node snapshot: type tag, stable key, ordered children, and the
`align` entry of its data mapping (`none` when the entry is absent). -/
inductive Node where
  | mk (type : String) (key : Nat) (nodes : List Node) (alignData : Option (List String))

/-- The node's type tag. -/
def Node.type : Node → String
  | .mk t _ _ _ => t

/-- The node's stable key. -/
def Node.key : Node → Nat
  | .mk _ k _ _ => k

/-- The node's ordered children. -/
def Node.nodes : Node → List Node
  | .mk _ _ ns _ => ns

/-- The `align` entry of the node's data mapping, when present. -/
def Node.alignData : Node → Option (List String)
  | .mk _ _ _ a => a

/-- `table.data.get('align', [])`: the align entry with an empty default. -/
def alignOf (t : Node) : List String :=
  t.alignData.getD []

/-- `node.type === opts.typeRow`. -/
def isRow (opts : Options) (n : Node) : Bool :=
  n.type == opts.typeRow

/-- `node.type === opts.typeCell`. -/
def isCell (opts : Options) (n : Node) : Bool :=
  n.type == opts.typeCell

/-- `row.nodes.count(isCell)`: the number of cell-typed children of a row. -/
def countCells (opts : Options) (row : Node) : Nat :=
  row.nodes.countP (fun n => isCell opts n)

/-- `rows.reduce((count, row) => Math.max(count, countCells(row)), 1)`:
the table-wide column count, the maximum cell-count over the row-typed
children, with a minimum of 1. -/
def tableColumns (opts : Options) (table : Node) : Nat :=
  (table.nodes.filter (fun n => isRow opts n)).foldl
    (fun count row => max count (countCells opts row)) 1

/-- An entry of the column-count rule's diagnosis: a non-conforming row, its
non-cell children, and the number of empty cells to insert
(`add = columns - cells`, a JS number that may in principle be negative). -/
structure RowEntry where
  row : Node
  invalids : List Node
  add : Int

/-- The body of the `rows.map(...)` in `rowsContainRequiredColumns.validate`:
`null` for a conforming row, the `{row, invalids, add}` payload otherwise. -/
def rowEntryFor (opts : Options) (columns : Nat) (row : Node) : Option RowEntry :=
  let cells := countCells opts row
  let invalids := row.nodes.filter (fun n => !(isCell opts n))
  if invalids.isEmpty && cells == columns then none
  else some ⟨row, invalids, (columns : Int) - (cells : Int)⟩

/-- `rowsContainRequiredColumns.validate` from `src/lib/schema/validateNode.js`:
diagnosis is the list of non-conforming rows, or `null` when that list is
empty. -/
def rowsValidate (opts : Options) (table : Node) : Option (List RowEntry) :=
  let rows := table.nodes.filter (fun n => isRow opts n)
  let columns := tableColumns opts table
  let invalidRows := rows.filterMap (rowEntryFor opts columns)
  if invalidRows.length > 0 then some invalidRows else none

/-- `rowsContainRequiredColumns.validate` from `src/lib/makeSchema.js`: the
legacy variant first checks `rows.every(row => columns === countCells(row))`
and returns `null` on success, without looking at non-cell children. -/
def rowsValidateMS (opts : Options) (table : Node) : Option (List RowEntry) :=
  let rows := table.nodes.filter (fun n => isRow opts n)
  let columns := tableColumns opts table
  if rows.all (fun row => columns == countCells opts row) then none
  else some (rows.filterMap (rowEntryFor opts columns))

/-- `makeEmptyCell(opts)`: a fresh cell node holding one empty text node.
The host assigns keys to freshly created nodes; the embedding threads an
explicit fresh-key argument, the cell taking key `k` and its text child
key `k + 1`. -/
def makeEmptyCell (opts : Options) (k : Nat) : Node :=
  .mk opts.typeCell k [.mk "" (k + 1) [] none] none

/-- `makeEmptyRow(opts)`: a fresh row node holding one empty cell. -/
def makeEmptyRow (opts : Options) (k : Nat) : Node :=
  .mk opts.typeRow k [makeEmptyCell opts (k + 1)] none

/-- Diagnosis of `tablesContainOnlyRows`: the non-row children and the list
of synthetic rows to insert. -/
structure TableDiag where
  invalids : List Node
  add : List Node

/-- `tablesContainOnlyRows.validate`: partition the children into rows and
invalids; schedule one synthetic empty row exactly when every child is
invalid (`invalids.size === table.nodes.size`). -/
def tablesValidate (opts : Options) (fresh : Nat) (table : Node) : Option TableDiag :=
  let invalids := table.nodes.filter (fun n => !(isRow opts n))
  let add := if invalids.length == table.nodes.length then [makeEmptyRow opts fresh] else []
  if invalids.isEmpty && add.isEmpty then none
  else some ⟨invalids, add⟩

/-- Diagnosis of `tableContainAlignData`: the current align sequence and the
required column count. -/
structure AlignDiag where
  align : List String
  columns : Nat

/-- `tableContainAlignData.validate` from `src/lib/schema/validateNode.js`.
It reads `table.nodes.first()` and dereferences `.type` on it: on a table
with zero children `first()` is `undefined` and the access throws, modelled
as `Except.error ()`. -/
def alignValidate (opts : Options) (table : Node) : Except Unit (Option AlignDiag) :=
  let align := alignOf table
  match table.nodes with
  | [] => .error ()
  | row :: _ =>
    if row.type == opts.typeRow then
      let columns := row.nodes.length
      if align.length == columns then .ok none else .ok (some ⟨align, columns⟩)
    else .ok none

/-- An edit operation appended to the host change/transform: removal by key,
insertion of a node under a parent key at a position, or a data update.
The `Bool` is the `normalize` flag passed to the host. -/
inductive Op where
  | removeNode (key : Nat) (normalize : Bool)
  | insertNode (parentKey : Nat) (index : Nat) (node : Node) (normalize : Bool)
  | setNodeAlign (key : Nat) (align : List String) (normalize : Bool)

/-- The host change object, modelled as the ordered list of appended ops. -/
abbrev Change := List Op

/-- A deferred repair: a function from change to change. -/
abbrev Normalizer := Change → Change

/-- `Modelled from the spec: createAlign` (`src/lib/createAlign` is not part
of the sources): deterministically extends or truncates the alignment
sequence to exactly `columns` entries, preserving existing entries at
matching indices and filling new columns with a default tag. -/
def createAlign (columns : Nat) (align : List String) : List String :=
  (List.range columns).map (fun i => align.getD i "none")

/-- The ops appended by `tablesContainOnlyRows.normalize`: remove each
invalid child by key with `normalize: false`, then insert each synthetic
row at position 0 of the table (no suppress flag on insertion). -/
def tablesNormalizeOps (node : Node) (d : TableDiag) : List Op :=
  d.invalids.map (fun child => Op.removeNode child.key false)
    ++ d.add.map (fun child => Op.insertNode node.key 0 child true)

/-- The ops appended for one diagnosis entry by
`rowsContainRequiredColumns.normalize`: remove each invalid child of the
row (`normalize: false`), then insert `add` fresh empty cells at position 0
of the row (`normalize: false`).  `fresh` is the first key the host assigns
to the freshly created cells (each cell consumes two keys). -/
def entryOps (opts : Options) (fresh : Nat) (e : RowEntry) : List Op :=
  e.invalids.map (fun child => Op.removeNode child.key false)
    ++ (List.range e.add.toNat).map
        (fun i => Op.insertNode e.row.key 0 (makeEmptyCell opts (fresh + 2 * i)) false)

/-- `rowsContainRequiredColumns.normalize`: the ops for every diagnosis
entry in order, threading the fresh-key supply. -/
def rowsNormalizeOps (opts : Options) (es : List RowEntry) (fresh : Nat) : List Op :=
  match es with
  | [] => []
  | e :: rest => entryOps opts fresh e ++ rowsNormalizeOps opts rest (fresh + 2 * e.add.toNat)

/-- `tableContainAlignData.normalize`: a single `setNodeByKey` replacing the
table's align data with `createAlign(columns, align)` (`normalize: false`). -/
def alignNormalizeOps (node : Node) (d : AlignDiag) : List Op :=
  [Op.setNodeAlign node.key (createAlign d.columns d.align) false]

/-- The old-format rule shape `{match, validate, normalize}`; `validate` may
throw (modelled as `Except`). -/
structure Rule (D : Type) where
  matchNode : Node → Bool
  validate : Node → Except Unit (Option D)
  normalize : Change → Node → D → Change

/-- `rowsContainRequiredColumns(opts)` as a rule. -/
def rowsRule (opts : Options) (fresh : Nat) : Rule (List RowEntry) where
  matchNode := fun node => node.type == opts.typeTable
  validate := fun node => .ok (rowsValidate opts node)
  normalize := fun change _node es => change ++ rowsNormalizeOps opts es fresh

/-- `tableContainAlignData(opts)` as a rule. -/
def alignRule (opts : Options) : Rule AlignDiag where
  matchNode := fun node => node.type == opts.typeTable
  validate := fun node => alignValidate opts node
  normalize := fun change node d => change ++ alignNormalizeOps node d

/-- `tablesContainOnlyRows(opts)` as a rule (defined but commented out of
the active pipeline). -/
def tablesRule (opts : Options) (fresh : Nat) : Rule TableDiag where
  matchNode := fun node => node.type == opts.typeTable
  validate := fun node => .ok (tablesValidate opts fresh node)
  normalize := fun change node d => change ++ tablesNormalizeOps node d

/-- A per-rule validator: `undefined` (no repair) is `ok none`, a repair
closure is `ok (some _)`, a thrown exception is `error`. -/
abbrev Validator := Node → Except Unit (Option Normalizer)

/-- `toValidateNode`: skip when the match fails, skip when the diagnosis is
`null`, otherwise return the closure `change => rule.normalize(change, node,
validationResult)`. -/
def toValidateNode {D : Type} (rule : Rule D) : Validator := fun node =>
  if rule.matchNode node then
    match rule.validate node with
    | .error e => .error e
    | .ok none => .ok none
    | .ok (some d) => .ok (some (fun change => rule.normalize change node d))
  else .ok none

/-- The `validators.find(...)` loop of `validateTableNode`: return the first
validator's truthy result, propagate a thrown exception, and return
`undefined` when every validator declines. -/
def findValidator : List Validator → Node → Except Unit (Option Normalizer)
  | [], _ => .ok none
  | v :: rest, node =>
    match v node with
    | .error e => .error e
    | .ok (some changer) => .ok (some changer)
    | .ok none => findValidator rest node

/-- `validateNode(opts)`: the active pipeline, with `tablesContainOnlyRows`
commented out — only the column-count rule and the align rule are
configured. -/
def validateNode (opts : Options) (fresh : Nat) : Node → Except Unit (Option Normalizer) :=
  findValidator [toValidateNode (rowsRule opts fresh), toValidateNode (alignRule opts)]

/-! ### Application semantics of the by-key edit operations

The host transform applies ops by key (spec §6: operations address nodes
purely by key).  We model the document as the table subtree under
validation.  Removal deletes every node carrying the removed key (keys are
unique in a Slate document, so at most one) without descending into it;
insertion places the new node at the given index of the node carrying the
parent key. -/

mutual

/-- All keys of the subtree rooted at a node, root first. -/
def keysOf : Node → List Nat
  | .mk _ k ns _ => k :: keysOfList ns

/-- All keys of a forest. -/
def keysOfList : List Node → List Nat
  | [] => []
  | c :: cs => keysOf c ++ keysOfList cs

end

mutual

/-- `removeNodeByKey`: drop every descendant carrying key `k`. -/
def removeByKey (k : Nat) : Node → Node
  | .mk t key ns a => .mk t key (removeByKeyList k ns) a

/-- Forest version of `removeByKey`. -/
def removeByKeyList (k : Nat) : List Node → List Node
  | [] => []
  | c :: cs =>
    if c.key = k then removeByKeyList k cs
    else removeByKey k c :: removeByKeyList k cs

end

/-- Insert an element at an index of a list. -/
def insertAt (i : Nat) (c : Node) (ns : List Node) : List Node :=
  ns.take i ++ c :: ns.drop i

mutual

/-- `insertNodeByKey`: insert `child` at index `i` of the children of the
node carrying key `pk`. -/
def insertByKey (pk i : Nat) (child : Node) : Node → Node
  | .mk t key ns a =>
    if key = pk then .mk t key (insertAt i child ns) a
    else .mk t key (insertByKeyList pk i child ns) a

/-- Forest version of `insertByKey`. -/
def insertByKeyList (pk i : Nat) (child : Node) : List Node → List Node
  | [] => []
  | c :: cs => insertByKey pk i child c :: insertByKeyList pk i child cs

end

mutual

/-- `setNodeByKey` restricted to the align data entry, the only data update
the rules emit. -/
def setAlignByKey (k : Nat) (al : List String) : Node → Node
  | .mk t key ns a =>
    if key = k then .mk t key ns (some al)
    else .mk t key (setAlignByKeyList k al ns) a

/-- Forest version of `setAlignByKey`. -/
def setAlignByKeyList (k : Nat) (al : List String) : List Node → List Node
  | [] => []
  | c :: cs => setAlignByKey k al c :: setAlignByKeyList k al cs

end

/-- Apply one edit op to the document subtree. -/
def applyOp (t : Node) : Op → Node
  | .removeNode k _ => removeByKey k t
  | .insertNode pk i child _ => insertByKey pk i child t
  | .setNodeAlign k al _ => setAlignByKey k al t

/-- Apply a sequence of edit ops in order. -/
def applyOps (t : Node) (ops : List Op) : Node :=
  ops.foldl applyOp t

/-- The repair the column-count rule produces for a table: the ops of its
normalize on its own diagnosis, or no ops when the diagnosis is `null`. -/
def rowsRepairOps (opts : Options) (table : Node) (fresh : Nat) : List Op :=
  match rowsValidate opts table with
  | none => []
  | some es => rowsNormalizeOps opts es fresh

/-- The repair the rows-only rule produces for a table. -/
def tablesRepairOps (opts : Options) (fresh : Nat) (table : Node) : List Op :=
  match tablesValidate opts fresh table with
  | none => []
  | some d => tablesNormalizeOps table d

/-! ### Parent/child bookkeeping for the op-ordering claim -/

mutual

/-- All (parent key, child key) edges of the subtree. -/
def parentChildPairs : Node → List (Nat × Nat)
  | .mk _ k ns _ => ns.map (fun c => (k, c.key)) ++ parentChildPairsList ns

/-- Forest version of `parentChildPairs`. -/
def parentChildPairsList : List Node → List (Nat × Nat)
  | [] => []
  | c :: cs => parentChildPairs c ++ parentChildPairsList cs

end

/-- The keys of the children of the node carrying key `p`. -/
def childrenKeys (p : Nat) (t : Node) : List Nat :=
  ((parentChildPairs t).filter (fun q => q.1 == p)).map (fun q => q.2)

/-- Whether an op is a removal. -/
def Op.isRemove : Op → Bool
  | .removeNode _ _ => true
  | _ => false

/-- Whether an op is an insertion. -/
def Op.isInsert : Op → Bool
  | .insertNode _ _ _ _ => true
  | _ => false

/-- The ops of a repair that target a given parent `p` of the original
table: removals of children of `p`, and insertions under `p`. -/
def opsForParent (t : Node) (p : Nat) (ops : List Op) : List Op :=
  ops.filter fun op =>
    match op with
    | .removeNode k _ => (childrenKeys p t).contains k
    | .insertNode pk _ _ _ => pk == p
    | .setNodeAlign _ _ _ => false

/-- No removal occurs after an insertion in the op list. -/
def noRemoveAfterInsert : List Op → Bool
  | [] => true
  | op :: rest =>
    (!(Op.isInsert op) || rest.all (fun o => !(Op.isRemove o))) && noRemoveAfterInsert rest

/-- Replace a node's children, keeping type, key and data. -/
def withNodes (c : Node) (ns : List Node) : Node :=
  .mk c.type c.key ns c.alignData

/-- The table-validity predicate of the idempotence claim: every child is a
row, every row has exactly `columns` children all of cell type, and the
align data has length `columns`. -/
def validTableClaim (opts : Options) (t : Node) : Prop :=
  (∀ c ∈ t.nodes, c.type = opts.typeRow)
  ∧ (∀ c ∈ t.nodes, c.nodes.length = tableColumns opts t ∧ ∀ x ∈ c.nodes, x.type = opts.typeCell)
  ∧ (alignOf t).length = tableColumns opts t

/-- Invariant tying an original table child `c` to its current version `c'`
while the column-count repair is applied row by row.  `pending` is the list
of rows not yet processed: pending rows are untouched, processed rows (and
conforming rows) already have exactly `columns` cells with their original
cells preserved as a suffix, non-rows are untouched, and every key of `c'`
is either an original key of `c` or a fresh key (at least `fresh0`). -/
def RState (opts : Options) (columns fresh0 : Nat) (pending : List Node)
    (c c' : Node) : Prop :=
  c'.key = c.key ∧ c'.type = c.type
  ∧ (∀ x ∈ keysOf c', x ∈ keysOf c ∨ fresh0 ≤ x)
  ∧ (c ∈ pending → c' = c)
  ∧ (isRow opts c = false → c' = c)
  ∧ (isRow opts c = true → c ∉ pending →
      countCells opts c' = columns
      ∧ ∃ new, (∀ x ∈ new, x.type = opts.typeCell)
          ∧ c'.nodes.filter (fun n => isCell opts n)
            = new ++ c.nodes.filter (fun n => isCell opts n))

/-! ### Concrete inputs used by witnesses and counterexamples -/

/-- A standard configuration. -/
def optsStd : Options := ⟨"table", "row", "cell"⟩

/-- A table whose single row has a cell and a paragraph: correct cell count
but an extra non-cell child. -/
def tableCellPlusPara : Node :=
  .mk "table" 0 [.mk "row" 1 [.mk "cell" 2 [] none, .mk "para" 3 [] none] none] none

/-- A table with zero children. -/
def childlessTable : Node := .mk "table" 0 [] none

/-- A childless table carrying a one-entry align list. -/
def childlessAlignedTable : Node := .mk "table" 0 [] (some ["left"])

/-- A well-formed one-row one-cell table with a one-entry align list. -/
def validOneCellTable : Node :=
  .mk "table" 0 [.mk "row" 1 [.mk "cell" 2 [] none] none] (some ["left"])

/-- A row with a single cell. -/
def rowOneCell : Node := .mk "row" 1 [.mk "cell" 2 [] none] none

/-- A two-row table whose first row has one cell and second has two. -/
def tableUneven : Node :=
  .mk "table" 0
    [rowOneCell, .mk "row" 3 [.mk "cell" 4 [] none, .mk "cell" 5 [] none] none] none

/-- The diagnosis `rowsValidate` computes for `tableUneven`. -/
def tableUnevenDiag : List RowEntry := [⟨rowOneCell, [], 1⟩]

/-- A table whose rows have 2, 3 and 1 cells (the spec's scenario). -/
def tableScenario : Node :=
  .mk "table" 0
    [.mk "row" 1 [.mk "cell" 2 [] none, .mk "cell" 3 [] none] none,
     .mk "row" 4 [.mk "cell" 5 [] none, .mk "cell" 6 [] none, .mk "cell" 7 [] none] none,
     .mk "row" 8 [.mk "cell" 9 [] none] none] none

/-- A table with two paragraphs and no row. -/
def tableTwoParas : Node :=
  .mk "table" 0 [.mk "para" 1 [] none, .mk "para" 2 [] none] none

/-- A table with one non-row child. -/
def tableOnePara : Node := .mk "table" 0 [.mk "para" 1 [] none] none

/-- A table whose first row has two cells but whose align list has one
entry. -/
def tableShortAlign : Node :=
  .mk "table" 0 [.mk "row" 1 [.mk "cell" 2 [] none, .mk "cell" 3 [] none] none]
    (some ["left"])

/-- Strong induction over nodes: to prove a property of every node it
suffices to prove it for a node assuming it for all its children. -/
theorem Node.strongInduction {P : Node → Prop}
    (h : ∀ t k ns a, (∀ c ∈ ns, P c) → P (.mk t k ns a)) : ∀ n, P n
  | .mk t k ns a => h t k ns a (fun c hc => Node.strongInduction h c)
termination_by n => sizeOf n
decreasing_by
  simp_wf
  have := List.sizeOf_lt_of_mem hc
  omega

@[simp] theorem Node.type_mk (t k ns a) : (Node.mk t k ns a).type = t := rfl

@[simp] theorem Node.key_mk (t k ns a) : (Node.mk t k ns a).key = k := rfl

@[simp] theorem Node.nodes_mk (t k ns a) : (Node.mk t k ns a).nodes = ns := rfl

@[simp] theorem Node.alignData_mk (t k ns a) : (Node.mk t k ns a).alignData = a := rfl

@[simp] theorem keysOf_mk (t k ns a) : keysOf (.mk t k ns a) = k :: keysOfList ns := rfl

@[simp] theorem keysOfList_nil : keysOfList [] = [] := rfl

@[simp] theorem keysOfList_cons (c cs) : keysOfList (c :: cs) = keysOf c ++ keysOfList cs := rfl

theorem mem_keysOfList {k : Nat} {ns : List Node} :
    k ∈ keysOfList ns ↔ ∃ c ∈ ns, k ∈ keysOf c := by
  induction ns with
  | nil => simp
  | cons c cs ih => simp [ih]

theorem self_mem_keysOf (n : Node) : n.key ∈ keysOf n := by
  cases n; simp

@[simp] theorem removeByKey_mk (k t key ns a) :
    removeByKey k (.mk t key ns a) = .mk t key (removeByKeyList k ns) a := rfl

@[simp] theorem removeByKeyList_nil (k) : removeByKeyList k [] = [] := rfl

theorem removeByKeyList_cons (k c cs) :
    removeByKeyList k (c :: cs) =
      if c.key = k then removeByKeyList k cs
      else removeByKey k c :: removeByKeyList k cs := rfl

@[simp] theorem insertByKey_mk (pk i child t key ns a) :
    insertByKey pk i child (.mk t key ns a) =
      if key = pk then Node.mk t key (insertAt i child ns) a
      else Node.mk t key (insertByKeyList pk i child ns) a := rfl

@[simp] theorem insertByKeyList_eq_map (pk i child ns) :
    insertByKeyList pk i child ns = ns.map (insertByKey pk i child) := by
  induction ns with
  | nil => rfl
  | cons c cs ih => simp [insertByKeyList, ih]

@[simp] theorem insertAt_zero (child ns) : insertAt 0 child ns = child :: ns := by
  simp [insertAt]

theorem key_removeByKey (k : Nat) (n : Node) : (removeByKey k n).key = n.key := by
  cases n; simp

theorem type_removeByKey (k : Nat) (n : Node) : (removeByKey k n).type = n.type := by
  cases n; simp

theorem key_insertByKey (pk i : Nat) (child n : Node) :
    (insertByKey pk i child n).key = n.key := by
  cases n; simp; split <;> simp

theorem removeByKeyList_eq_self_aux {k : Nat} :
    ∀ ns : List Node, (∀ c ∈ ns, k ∉ keysOf c → removeByKey k c = c) →
      k ∉ keysOfList ns → removeByKeyList k ns = ns := by
  intro ns
  induction ns with
  | nil => intro _ _; rfl
  | cons c cs ih =>
    intro hmem hk
    simp only [keysOfList_cons, List.mem_append, not_or] at hk
    rw [removeByKeyList_cons, if_neg, hmem c (by simp) hk.1,
      ih (fun x hx => hmem x (by simp [hx])) hk.2]
    intro hck
    exact hk.1 (hck ▸ self_mem_keysOf c)

theorem removeByKey_eq_self {k : Nat} : ∀ n, k ∉ keysOf n → removeByKey k n = n := by
  intro n
  induction n using Node.strongInduction with
  | h t key ns a ih =>
    intro hk
    simp only [keysOf_mk, List.mem_cons, not_or] at hk
    simp only [removeByKey_mk, Node.mk.injEq, true_and, and_true]
    exact removeByKeyList_eq_self_aux ns ih hk.2

theorem removeByKeyList_eq_self {k : Nat} {ns : List Node} (h : k ∉ keysOfList ns) :
    removeByKeyList k ns = ns :=
  removeByKeyList_eq_self_aux ns (fun c _ => removeByKey_eq_self c) h

theorem insertByKey_eq_self {pk : Nat} {i : Nat} {child : Node} :
    ∀ n, pk ∉ keysOf n → insertByKey pk i child n = n := by
  intro n
  induction n using Node.strongInduction with
  | h t key ns a ih =>
    intro hk
    simp only [keysOf_mk, List.mem_cons, not_or] at hk
    rw [insertByKey_mk, if_neg (fun hkey => hk.1 hkey.symm)]
    simp only [insertByKeyList_eq_map, Node.mk.injEq, true_and, and_true]
    have : ∀ c ∈ ns, insertByKey pk i child c = c := by
      intro c hc
      refine ih c hc ?_
      intro hmem
      exact hk.2 (mem_keysOfList.mpr ⟨c, hc, hmem⟩)
    calc ns.map (insertByKey pk i child) = ns.map id := List.map_congr_left this
      _ = ns := List.map_id ns

theorem keysOf_subset_keysOfList {c : Node} {ns : List Node} (hc : c ∈ ns) :
    keysOf c ⊆ keysOfList ns :=
  fun _ hk => mem_keysOfList.mpr ⟨c, hc, hk⟩

theorem nodup_keysOf_of_mem :
    ∀ {ns : List Node}, (keysOfList ns).Nodup → ∀ {c : Node}, c ∈ ns → (keysOf c).Nodup := by
  intro ns
  induction ns with
  | nil => intro _ c hc; cases hc
  | cons d ds ih =>
    intro h c hc
    rw [keysOfList_cons, List.nodup_append] at h
    rcases List.mem_cons.mp hc with hc | hc
    · exact hc ▸ h.1
    · exact ih h.2.1 hc

theorem keysOf_disjoint_of_ne :
    ∀ {ns : List Node}, (keysOfList ns).Nodup → ∀ {v x : Node}, v ∈ ns → x ∈ ns → v ≠ x →
      ∀ k, k ∈ keysOf v → k ∈ keysOf x → False := by
  intro ns
  induction ns with
  | nil => intro _ v x hv; cases hv
  | cons d ds ih =>
    intro h v x hv hx hne
    rw [keysOfList_cons, List.nodup_append] at h
    rcases List.mem_cons.mp hv with hv | hv <;> rcases List.mem_cons.mp hx with hx | hx
    · exact absurd (hv.trans hx.symm) hne
    · intro k hkv hkx
      exact h.2.2 (hv ▸ hkv) (keysOf_subset_keysOfList hx hkx)
    · intro k hkv hkx
      exact h.2.2 (hx ▸ hkx) (keysOf_subset_keysOfList hv hkv)
    · exact ih h.2.1 hv hx hne

theorem roots_nodup :
    ∀ {ns : List Node}, (keysOfList ns).Nodup → (ns.map Node.key).Nodup := by
  intro ns
  induction ns with
  | nil => simp
  | cons d ds ih =>
    intro h
    rw [keysOfList_cons, List.nodup_append] at h
    rw [List.map_cons, List.nodup_cons]
    refine ⟨?_, ih h.2.1⟩
    intro hmem
    rcases List.mem_map.mp hmem with ⟨x, hx, hkey⟩
    exact h.2.2 (self_mem_keysOf d) (keysOf_subset_keysOfList hx (hkey ▸ self_mem_keysOf x))

theorem eq_of_key_mem {ns : List Node} (h : (keysOfList ns).Nodup) {v x : Node}
    (hv : v ∈ ns) (hx : x ∈ ns) (hk : v.key ∈ keysOf x) : v = x := by
  by_contra hne
  exact keysOf_disjoint_of_ne h hv hx hne v.key (self_mem_keysOf v) hk

theorem eq_of_key_eq {ns : List Node} (h : (keysOfList ns).Nodup) {v x : Node}
    (hv : v ∈ ns) (hx : x ∈ ns) (he : v.key = x.key) : v = x :=
  eq_of_key_mem h hv hx (he ▸ self_mem_keysOf x)

@[simp] theorem withNodes_nodes (c : Node) (ns : List Node) : (withNodes c ns).nodes = ns := rfl

@[simp] theorem withNodes_key (c : Node) (ns : List Node) : (withNodes c ns).key = c.key := rfl

@[simp] theorem withNodes_type (c : Node) (ns : List Node) : (withNodes c ns).type = c.type := rfl

@[simp] theorem withNodes_alignData (c : Node) (ns : List Node) :
    (withNodes c ns).alignData = c.alignData := rfl

theorem withNodes_self (c : Node) : withNodes c c.nodes = c := by cases c; rfl

theorem withNodes_withNodes (c : Node) (m m' : List Node) :
    withNodes (withNodes c m) m' = withNodes c m' := by cases c; rfl

theorem removeByKey_withNodes (k : Nat) (c : Node) :
    removeByKey k c = withNodes c (removeByKeyList k c.nodes) := by cases c; rfl

theorem keysOfList_removeByKeyList_subset_aux {k : Nat} :
    ∀ ns : List Node, (∀ c ∈ ns, keysOf (removeByKey k c) ⊆ keysOf c) →
      keysOfList (removeByKeyList k ns) ⊆ keysOfList ns := by
  intro ns
  induction ns with
  | nil => intro _; simp
  | cons c cs ih =>
    intro hmem
    rw [removeByKeyList_cons]
    split
    · exact (ih (fun x hx => hmem x (by simp [hx]))).trans (by simp [List.subset_append_right])
    · rw [keysOfList_cons, keysOfList_cons]
      intro x hx
      rcases List.mem_append.mp hx with hx | hx
      · exact List.mem_append_left _ (hmem c (by simp) hx)
      · exact List.mem_append_right _ (ih (fun y hy => hmem y (by simp [hy])) hx)

theorem keysOf_removeByKey_subset {k : Nat} : ∀ n, keysOf (removeByKey k n) ⊆ keysOf n := by
  intro n
  induction n using Node.strongInduction with
  | h t key ns a ih =>
    rw [removeByKey_mk, keysOf_mk, keysOf_mk]
    intro x hx
    rcases List.mem_cons.mp hx with hx | hx
    · simp [hx]
    · exact List.mem_cons_of_mem _
        (keysOfList_removeByKeyList_subset_aux ns (fun c hc => ih c hc) hx)

theorem mem_removeByKeyList {k : Nat} {ns : List Node} {x1 : Node}
    (h : x1 ∈ removeByKeyList k ns) : ∃ x ∈ ns, x1 = removeByKey k x := by
  induction ns with
  | nil => simp at h
  | cons c cs ih =>
    rw [removeByKeyList_cons] at h
    split at h
    · rcases ih h with ⟨x, hx, he⟩
      exact ⟨x, by simp [hx], he⟩
    · rcases List.mem_cons.mp h with he | h
      · exact ⟨c, by simp, he⟩
      · rcases ih h with ⟨x, hx, he⟩
        exact ⟨x, by simp [hx], he⟩

theorem removeByKeyList_eq_map {k : Nat} {ns : List Node} (h : ∀ c ∈ ns, c.key ≠ k) :
    removeByKeyList k ns = ns.map (removeByKey k) := by
  induction ns with
  | nil => rfl
  | cons c cs ih =>
    rw [removeByKeyList_cons, if_neg (h c (by simp)), List.map_cons,
      ih (fun x hx => h x (by simp [hx]))]

theorem removeByKeyList_eq_filter {k : Nat} {ns : List Node}
    (h : ∀ x ∈ ns, k ∈ keysOf x → k = x.key) :
    removeByKeyList k ns = ns.filter (fun x => !(x.key == k)) := by
  induction ns with
  | nil => rfl
  | cons c cs ih =>
    rw [removeByKeyList_cons, List.filter_cons]
    by_cases hck : c.key = k
    · rw [if_pos hck]
      have hfalse : (!(c.key == k)) = false := by simp [hck]
      rw [hfalse, if_neg (by simp)]
      exact ih (fun x hx => h x (by simp [hx]))
    · rw [if_neg hck]
      have htrue : (!(c.key == k)) = true := by simp [hck]
      rw [htrue, if_pos rfl, removeByKey_eq_self c (fun hmem => hck (h c (by simp) hmem).symm),
        ih (fun x hx => h x (by simp [hx]))]

@[simp] theorem applyOps_nil (t : Node) : applyOps t [] = t := rfl

theorem applyOps_cons (t : Node) (op : Op) (ops : List Op) :
    applyOps t (op :: ops) = applyOps (applyOp t op) ops := rfl

theorem applyOps_append (t : Node) (ops1 ops2 : List Op) :
    applyOps t (ops1 ++ ops2) = applyOps (applyOps t ops1) ops2 := by
  simp [applyOps]

theorem insertByKey_of_key_eq {rk i : Nat} {d : Node} {c : Node} (h : c.key = rk) :
    insertByKey rk i d c = withNodes c (insertAt i d c.nodes) := by
  cases c
  simp only [Node.key_mk] at h
  rw [insertByKey_mk, if_pos h]
  rfl

/-- Applying a batch of removals to a one-level table whose removed keys
all live immediately below the child carrying key `rk` filters those keys
out of that child's children and leaves everything else unchanged. -/
theorem applyRemovals (T : String) (tk : Nat) (a : Option (List String)) (rk : Nat) :
    ∀ (ks : List Nat) (l : List Node),
      (∀ k ∈ ks, ∀ c ∈ l, c.key ≠ rk → k ∉ keysOf c) →
      (∀ k ∈ ks, ∀ c ∈ l, c.key ≠ k) →
      (∀ k ∈ ks, ∀ c ∈ l, c.key = rk → ∀ x ∈ c.nodes, k ∈ keysOf x → k = x.key) →
      applyOps (Node.mk T tk l a) (ks.map (fun k => Op.removeNode k false)) =
        Node.mk T tk (l.map (fun c =>
          if c.key = rk then withNodes c (c.nodes.filter (fun x => !(ks.contains x.key)))
          else c)) a := by
  intro ks
  induction ks with
  | nil =>
    intro l _ _ _
    simp only [List.map_nil, applyOps_nil, Node.mk.injEq, true_and, and_true]
    have hpt : ∀ c ∈ l,
        (if c.key = rk then withNodes c (c.nodes.filter (fun x => !(List.contains [] x.key)))
         else c) = c := by
      intro c _
      split
      · have hf : c.nodes.filter (fun x => !(List.contains [] x.key)) = c.nodes := by simp
        rw [hf, withNodes_self]
      · rfl
    rw [List.map_congr_left hpt]
    simp
  | cons k0 ks ih =>
    intro l h1 h2 h3
    rw [List.map_cons, applyOps_cons]
    have hl1 : applyOp (Node.mk T tk l a) (Op.removeNode k0 false)
        = Node.mk T tk (l.map (removeByKey k0)) a := by
      show removeByKey k0 (Node.mk T tk l a) = _
      rw [removeByKey_mk, removeByKeyList_eq_map (fun c hc => h2 k0 (by simp) c hc)]
    rw [hl1, ih (l.map (removeByKey k0))
      (by
        intro k hk c1 hc1 hkey
        rcases List.mem_map.mp hc1 with ⟨c, hc, rfl⟩
        rw [key_removeByKey] at hkey
        intro hmem
        exact h1 k (by simp [hk]) c hc hkey (keysOf_removeByKey_subset c hmem))
      (by
        intro k hk c1 hc1
        rcases List.mem_map.mp hc1 with ⟨c, hc, rfl⟩
        rw [key_removeByKey]
        exact h2 k (by simp [hk]) c hc)
      (by
        intro k hk c1 hc1 hkey x1 hx1 hmem
        rcases List.mem_map.mp hc1 with ⟨c, hc, rfl⟩
        rw [key_removeByKey] at hkey
        rw [removeByKey_withNodes, withNodes_nodes] at hx1
        rcases mem_removeByKeyList hx1 with ⟨x, hx, rfl⟩
        rw [key_removeByKey]
        exact h3 k (by simp [hk]) c hc hkey x hx (keysOf_removeByKey_subset x hmem))]
    simp only [Node.mk.injEq, true_and, and_true, List.map_map]
    refine List.map_congr_left ?_
    intro c hc
    simp only [Function.comp_apply]
    by_cases hrk : c.key = rk
    · have hrm : removeByKey k0 c = withNodes c (c.nodes.filter (fun x => !(x.key == k0))) := by
        rw [removeByKey_withNodes,
          removeByKeyList_eq_filter (fun x hx hmem => h3 k0 (by simp) c hc hrk x hx hmem)]
      rw [hrm, if_pos (by rw [withNodes_key]; exact hrk), if_pos hrk, withNodes_nodes,
        withNodes_withNodes, List.filter_filter]
      congr 1
      refine List.filter_congr ?_
      intro x _
      have hcc : List.contains (k0 :: ks) x.key = ((x.key == k0) || List.contains ks x.key) := by
        by_cases hx : x.key = k0 <;> simp [List.contains_cons, hx]
      rw [hcc, Bool.not_or, Bool.and_comm]
    · have hrm : removeByKey k0 c = c :=
        removeByKey_eq_self c (h1 k0 (by simp) c hc hrk)
      rw [hrm, if_neg hrk, if_neg hrk]

/-- Applying a batch of insertions at position 0 under key `rk` to a
one-level table prepends the inserted nodes, in reverse order of
insertion, to the children of every child carrying key `rk`. -/
theorem applyInserts (T : String) (tk : Nat) (a : Option (List String)) (rk : Nat)
    (htk : tk ≠ rk) :
    ∀ (ds : List Node) (l : List Node),
      (∀ c ∈ l, c.key ≠ rk → rk ∉ keysOf c) →
      applyOps (Node.mk T tk l a) (ds.map (fun d => Op.insertNode rk 0 d false)) =
        Node.mk T tk (l.map (fun c =>
          if c.key = rk then withNodes c (ds.reverse ++ c.nodes) else c)) a := by
  intro ds
  induction ds with
  | nil =>
    intro l _
    simp only [List.map_nil, applyOps_nil, Node.mk.injEq, true_and, and_true,
      List.reverse_nil, List.nil_append]
    have hpt : ∀ c ∈ l, (if c.key = rk then withNodes c c.nodes else c) = c := by
      intro c _
      split <;> simp [withNodes_self]
    rw [List.map_congr_left hpt]
    simp
  | cons d0 ds ih =>
    intro l hskip
    rw [List.map_cons, applyOps_cons]
    have hl1 : applyOp (Node.mk T tk l a) (Op.insertNode rk 0 d0 false)
        = Node.mk T tk (l.map (insertByKey rk 0 d0)) a := by
      show insertByKey rk 0 d0 (Node.mk T tk l a) = _
      rw [insertByKey_mk, if_neg htk, insertByKeyList_eq_map]
    rw [hl1, ih (l.map (insertByKey rk 0 d0))
      (by
        intro c1 hc1 hkey
        rcases List.mem_map.mp hc1 with ⟨c, hc, rfl⟩
        rw [key_insertByKey] at hkey
        rw [insertByKey_eq_self c (hskip c hc hkey)]
        exact hskip c hc hkey)]
    simp only [Node.mk.injEq, true_and, and_true, List.map_map]
    refine List.map_congr_left ?_
    intro c hc
    simp only [Function.comp_apply]
    by_cases hrk : c.key = rk
    · rw [insertByKey_of_key_eq hrk, insertAt_zero,
        if_pos (by rw [withNodes_key]; exact hrk), if_pos hrk, withNodes_nodes,
        withNodes_withNodes, List.reverse_cons, List.append_assoc, List.singleton_append]
    · rw [insertByKey_eq_self c (hskip c hc hrk), if_neg hrk, if_neg hrk]

/-! ### Characterizations of the validate functions -/

theorem rowEntryFor_eq_none_iff (opts : Options) (columns : Nat) (r : Node) :
    rowEntryFor opts columns r = none ↔
      (r.nodes.filter (fun n => !(isCell opts n)) = [] ∧ countCells opts r = columns) := by
  rw [rowEntryFor]
  split
  next h =>
    rw [Bool.and_eq_true, List.isEmpty_iff, beq_iff_eq] at h
    simp [h.1, h.2]
  next h =>
    rw [Bool.and_eq_true, List.isEmpty_iff, beq_iff_eq] at h
    simp only [reduceCtorEq, false_iff]
    exact h

theorem rowEntryFor_eq_some {opts : Options} {columns : Nat} {r : Node} {e : RowEntry}
    (h : rowEntryFor opts columns r = some e) :
    e.row = r ∧ e.invalids = r.nodes.filter (fun n => !(isCell opts n))
      ∧ e.add = (columns : Int) - (countCells opts r : Int) := by
  rw [rowEntryFor] at h
  split at h
  · cases h
  · rw [Option.some.injEq] at h
    subst h
    exact ⟨rfl, rfl, rfl⟩

theorem rowsValidate_eq_none_iff (opts : Options) (t : Node) :
    rowsValidate opts t = none ↔
      ∀ r ∈ t.nodes.filter (fun n => isRow opts n),
        rowEntryFor opts (tableColumns opts t) r = none := by
  rw [rowsValidate, ← List.filterMap_eq_nil_iff]
  rcases hl : (t.nodes.filter (fun n => isRow opts n)).filterMap
      (rowEntryFor opts (tableColumns opts t)) with _ | ⟨e, es⟩
  · simp
  · simp

theorem rowsValidate_eq_some {opts : Options} {t : Node} {es : List RowEntry}
    (h : rowsValidate opts t = some es) :
    es = (t.nodes.filter (fun n => isRow opts n)).filterMap
      (rowEntryFor opts (tableColumns opts t)) := by
  rw [rowsValidate] at h
  split at h
  · rw [Option.some.injEq] at h
    exact h.symm
  · cases h

theorem rowsValidateMS_eq_none_iff (opts : Options) (t : Node) :
    rowsValidateMS opts t = none ↔
      ∀ r ∈ t.nodes.filter (fun n => isRow opts n),
        tableColumns opts t = countCells opts r := by
  rw [rowsValidateMS]
  split
  next h =>
    rw [List.all_eq_true] at h
    simp only [true_iff]
    intro r hr
    exact beq_iff_eq.mp (h r hr)
  next h =>
    rw [List.all_eq_true] at h
    simp only [reduceCtorEq, false_iff]
    intro hall
    exact h (fun r hr => beq_iff_eq.mpr (hall r hr))

theorem rowsValidateMS_eq_some {opts : Options} {t : Node} {es : List RowEntry}
    (h : rowsValidateMS opts t = some es) :
    es = (t.nodes.filter (fun n => isRow opts n)).filterMap
      (rowEntryFor opts (tableColumns opts t)) := by
  rw [rowsValidateMS] at h
  split at h
  · cases h
  · rw [Option.some.injEq] at h
    exact h.symm

theorem le_foldl_max_init (g : Node → Nat) :
    ∀ (l : List Node) (i : Nat), i ≤ l.foldl (fun c x => max c (g x)) i := by
  intro l
  induction l with
  | nil => intro i; exact Nat.le_refl i
  | cons r rs ih =>
    intro i
    exact le_trans (Nat.le_max_left i (g r)) (ih (max i (g r)))

theorem le_foldl_max (g : Node → Nat) :
    ∀ (l : List Node) (i : Nat) (r : Node), r ∈ l → g r ≤ l.foldl (fun c x => max c (g x)) i := by
  intro l
  induction l with
  | nil => intro i r hr; cases hr
  | cons x xs ih =>
    intro i r hr
    rcases List.mem_cons.mp hr with hr | hr
    · subst hr
      exact le_trans (Nat.le_max_right i (g r)) (le_foldl_max_init g xs (max i (g r)))
    · exact ih (max i (g x)) r hr

theorem countCells_le_tableColumns {opts : Options} {t : Node} {r : Node}
    (hr : r ∈ t.nodes.filter (fun n => isRow opts n)) :
    countCells opts r ≤ tableColumns opts t :=
  le_foldl_max (countCells opts) _ 1 r hr

theorem one_le_tableColumns (opts : Options) (t : Node) : 1 ≤ tableColumns opts t :=
  le_foldl_max_init (countCells opts) _ 1

/-! ### Pipeline helper lemmas -/

theorem toValidateNode_ok_none {D : Type} (rule : Rule D) (n : Node)
    (h : rule.validate n = .ok none) : toValidateNode rule n = .ok none := by
  unfold toValidateNode
  split
  · rw [h]
  · rfl

theorem findValidator_cons_eq (v : Validator) (rest : List Validator) (n : Node) :
    findValidator (v :: rest) n =
      match v n with
      | .error e => .error e
      | .ok (some changer) => .ok (some changer)
      | .ok none => findValidator rest n := rfl

theorem findValidator_cons_some {v : Validator} {rest : List Validator} {n : Node}
    {c : Normalizer} (h : v n = .ok (some c)) :
    findValidator (v :: rest) n = .ok (some c) := by
  rw [findValidator_cons_eq, h]

theorem findValidator_cons_none {v : Validator} {rest : List Validator} {n : Node}
    (h : v n = .ok none) : findValidator (v :: rest) n = findValidator rest n := by
  rw [findValidator_cons_eq, h]

theorem findValidator_of_all_none :
    ∀ (vs : List Validator) (n : Node), (∀ w ∈ vs, w n = .ok none) →
      findValidator vs n = .ok none := by
  intro vs
  induction vs with
  | nil => intro n _; rfl
  | cons v rest ih =>
    intro n h
    rw [findValidator_cons_none (h v (by simp))]
    exact ih n (fun w hw => h w (by simp [hw]))

theorem alignValidate_of_head_not_row {opts : Options} {t : Node} {row : Node}
    {rest : List Node} (h : t.nodes = row :: rest) (hrow : row.type ≠ opts.typeRow) :
    alignValidate opts t = .ok none := by
  have hb : (row.type == opts.typeRow) = false := beq_eq_false_iff_ne.mpr hrow
  simp [alignValidate, h, hb]

theorem alignValidate_of_head_row {opts : Options} {t : Node} {row : Node}
    {rest : List Node} (h : t.nodes = row :: rest) (hrow : row.type = opts.typeRow) :
    alignValidate opts t =
      if (alignOf t).length = row.nodes.length then .ok none
      else .ok (some ⟨alignOf t, row.nodes.length⟩) := by
  have hb : (row.type == opts.typeRow) = true := beq_iff_eq.mpr hrow
  by_cases hlen : (alignOf t).length = row.nodes.length
  · have hb2 : ((alignOf t).length == row.nodes.length) = true := beq_iff_eq.mpr hlen
    simp [alignValidate, h, hb, hb2, hlen]
  · have hb2 : ((alignOf t).length == row.nodes.length) = false := by
      rw [beq_eq_false_iff_ne]
      exact hlen
    simp [alignValidate, h, hb, hb2, hlen]

theorem nat_contains_iff {l : List Nat} {a : Nat} : l.contains a = true ↔ a ∈ l :=
  List.elem_iff

/-- Applying a batch of removals whose keys occur only as keys of direct
children filters those children out. -/
theorem applyRemovalsTop (T : String) (tk : Nat) (a : Option (List String)) :
    ∀ (ks : List Nat) (l : List Node),
      (∀ k ∈ ks, ∀ c ∈ l, k ∈ keysOf c → k = c.key) →
      applyOps (Node.mk T tk l a) (ks.map (fun k => Op.removeNode k false)) =
        Node.mk T tk (l.filter (fun c => !(ks.contains c.key))) a := by
  intro ks
  induction ks with
  | nil =>
    intro l _
    simp
  | cons k0 ks ih =>
    intro l h
    rw [List.map_cons, applyOps_cons]
    have hl1 : applyOp (Node.mk T tk l a) (Op.removeNode k0 false)
        = Node.mk T tk (l.filter (fun x => !(x.key == k0))) a := by
      show removeByKey k0 (Node.mk T tk l a) = _
      rw [removeByKey_mk, removeByKeyList_eq_filter (fun x hx hmem => h k0 (by simp) x hx hmem)]
    rw [hl1, ih (l.filter (fun x => !(x.key == k0)))
      (fun k hk c hc hmem => h k (by simp [hk]) c (List.mem_of_mem_filter hc) hmem)]
    simp only [Node.mk.injEq, true_and, and_true, List.filter_filter]
    refine List.filter_congr ?_
    intro x _
    have hcc : List.contains (k0 :: ks) x.key = ((x.key == k0) || List.contains ks x.key) := by
      by_cases hx : x.key = k0 <;> simp [List.contains_cons, hx]
    rw [hcc, Bool.not_or, Bool.and_comm]

/-! ### The claims -/

/-- C2 (counterexample): on a table whose single row has one cell and one
paragraph, the makeSchema implementation of the column-count rule returns a
`null` diagnosis even though a row-typed child has a non-cell child, so the
claimed characterization fails for that implementation. -/
theorem rowColumn_diagnosis_makeSchema_counterexample :
    rowsValidateMS optsStd tableCellPlusPara = none
    ∧ ((tableCellPlusPara.nodes.filter (fun n => isRow optsStd n)).any
        (fun r => !((r.nodes.filter (fun n => !(isCell optsStd n))).isEmpty))) = true :=
  ⟨rfl, rfl⟩

/-- C2 (amended): the diagnosis of `rowsContainRequiredColumns.validate` in
`validateNode.js` is `null` iff every row-typed child has no non-cell
children and exactly `columns` cell children; in `makeSchema.js` the
diagnosis is `null` iff every row-typed child has exactly `columns` cell
children, non-cell children being ignored by that check. -/
theorem rowColumn_diagnosis_characterization (opts : Options) (t : Node) :
    (rowsValidate opts t = none ↔
      ∀ r ∈ t.nodes.filter (fun n => isRow opts n),
        r.nodes.filter (fun n => !(isCell opts n)) = []
          ∧ countCells opts r = tableColumns opts t)
    ∧ (rowsValidateMS opts t = none ↔
      ∀ r ∈ t.nodes.filter (fun n => isRow opts n),
        countCells opts r = tableColumns opts t) := by
  constructor
  · rw [rowsValidate_eq_none_iff]
    constructor
    · intro h r hr
      exact (rowEntryFor_eq_none_iff _ _ _).mp (h r hr)
    · intro h r hr
      exact (rowEntryFor_eq_none_iff _ _ _).mpr (h r hr)
  · rw [rowsValidateMS_eq_none_iff]
    constructor
    · intro h r hr
      exact (h r hr).symm
    · intro h r hr
      exact (h r hr).symm

/-- C3: the alignment rule's validate throws on a table with zero children:
`table.nodes.first()` is `undefined` and reading `.type` on it fails, in
contradiction with the spec's tolerance of malformed nodes. -/
theorem alignValidate_error_on_childless_table :
    alignValidate optsStd childlessTable = .error () := rfl

/-- C8: for a table whose first child exists, the alignment rule's validate
returns `null` when that child is not row-typed; otherwise it returns
`null` exactly when the align length equals the first child's total child
count, and the diagnosis `{align, columns}` otherwise. -/
theorem alignValidate_characterization (opts : Options) (t : Node) (row : Node)
    (rest : List Node) (h : t.nodes = row :: rest) :
    (row.type ≠ opts.typeRow → alignValidate opts t = .ok none)
    ∧ (row.type = opts.typeRow →
        alignValidate opts t =
          if (alignOf t).length = row.nodes.length then .ok none
          else .ok (some ⟨alignOf t, row.nodes.length⟩)) :=
  ⟨fun hrow => alignValidate_of_head_not_row h hrow,
   fun hrow => alignValidate_of_head_row h hrow⟩

/-- C8 witness: a table with a two-cell first row and a one-entry align
list is diagnosed `{align: ["left"], columns: 2}`. -/
theorem alignValidate_characterization_witness :
    tableShortAlign.nodes
        = (Node.mk "row" 1 [.mk "cell" 2 [] none, .mk "cell" 3 [] none] none) :: []
    ∧ alignValidate optsStd tableShortAlign = .ok (some ⟨["left"], 2⟩) := by
  refine ⟨rfl, ?_⟩
  rw [(alignValidate_characterization optsStd tableShortAlign
    (Node.mk "row" 1 [.mk "cell" 2 [] none, .mk "cell" 3 [] none] none) [] rfl).2 rfl]
  rfl

/-- C9: every entry of the column-count diagnosis (either implementation)
has a non-negative `add`, because `columns` is at least every row's cell
count. -/
theorem rowEntry_add_nonneg (opts : Options) (t : Node) (es : List RowEntry)
    (h : rowsValidate opts t = some es ∨ rowsValidateMS opts t = some es) :
    ∀ e ∈ es, 0 ≤ e.add := by
  have hes : es = (t.nodes.filter (fun n => isRow opts n)).filterMap
      (rowEntryFor opts (tableColumns opts t)) := by
    rcases h with h | h
    · exact rowsValidate_eq_some h
    · exact rowsValidateMS_eq_some h
  subst hes
  intro e he
  rcases List.mem_filterMap.mp he with ⟨r, hr, hre⟩
  rcases rowEntryFor_eq_some hre with ⟨_, _, hadd⟩
  have hle : countCells opts r ≤ tableColumns opts t := countCells_le_tableColumns hr
  rw [hadd]
  omega

/-- C9 witness: the uneven two-row table yields the entry `add = 1 ≥ 0`. -/
theorem rowEntry_add_nonneg_witness :
    rowsValidate optsStd tableUneven = some tableUnevenDiag
    ∧ ∀ e ∈ tableUnevenDiag, 0 ≤ e.add :=
  ⟨rfl, rowEntry_add_nonneg optsStd tableUneven tableUnevenDiag (Or.inl rfl)⟩

/-- C10: on a table with at least one child none of which is row-typed, the
column-count rule diagnoses `null` (no rows), the alignment rule diagnoses
`null` (first child not a row), and the active pipeline returns no
repair. -/
theorem pipeline_skips_rowless_table (opts : Options) (fresh : Nat) (t : Node)
    (h1 : t.nodes ≠ []) (h2 : ∀ c ∈ t.nodes, c.type ≠ opts.typeRow) :
    rowsValidate opts t = none ∧ alignValidate opts t = .ok none
      ∧ validateNode opts fresh t = .ok none := by
  have hrows : t.nodes.filter (fun n => isRow opts n) = [] := by
    rw [List.filter_eq_nil_iff]
    intro c hc
    simp [isRow, h2 c hc]
  have hrv : rowsValidate opts t = none :=
    (rowsValidate_eq_none_iff opts t).mpr (by rw [hrows]; intro r hr; cases hr)
  have hav : alignValidate opts t = .ok none := by
    rcases hn : t.nodes with _ | ⟨row, rest⟩
    · exact absurd hn h1
    · exact alignValidate_of_head_not_row hn (h2 row (by rw [hn]; simp))
  refine ⟨hrv, hav, ?_⟩
  have hv1 : toValidateNode (rowsRule opts fresh) t = .ok none := by
    refine toValidateNode_ok_none _ _ ?_
    show Except.ok (rowsValidate opts t) = _
    rw [hrv]
  have hv2 : toValidateNode (alignRule opts) t = .ok none :=
    toValidateNode_ok_none _ _ hav
  show findValidator _ t = _
  rw [findValidator_cons_none hv1, findValidator_cons_none hv2]
  rfl

theorem tablesValidate_eq_some {opts : Options} {fresh : Nat} {t : Node} {d : TableDiag}
    (h : tablesValidate opts fresh t = some d) :
    d.invalids = t.nodes.filter (fun n => !(isRow opts n))
    ∧ d.add = (if (t.nodes.filter (fun n => !(isRow opts n))).length == t.nodes.length
               then [makeEmptyRow opts fresh] else []) := by
  rw [tablesValidate] at h
  split_ifs at h with h1 h2
  · rw [Option.some.injEq] at h
    subst h
    exact ⟨rfl, by rw [if_pos h1]⟩
  · rw [Option.some.injEq] at h
    subst h
    exact ⟨rfl, by rw [if_neg h1]⟩

theorem tablesValidate_eq_none_iff {opts : Options} {fresh : Nat} {t : Node} :
    tablesValidate opts fresh t = none ↔
      t.nodes.filter (fun n => !(isRow opts n)) = [] ∧ t.nodes ≠ [] := by
  rw [tablesValidate]
  split_ifs with h1 h2 h3
  · -- a synthetic row is scheduled, so the add list is not empty
    simp at h2
  · -- every child invalid: the diagnosis is some, the right side needs a row
    simp only [reduceCtorEq, false_iff]
    rintro ⟨hinv, hne⟩
    rw [beq_iff_eq, hinv] at h1
    exact hne (List.length_eq_zero.mp h1.symm)
  · -- no invalids and at least one child: diagnosis is null
    rw [Bool.and_eq_true, List.isEmpty_iff] at h3
    simp only [true_iff]
    refine ⟨h3.1, ?_⟩
    intro hnil
    apply h1
    rw [h3.1, hnil]
    rfl
  · -- invalids remain: diagnosis is some
    simp only [reduceCtorEq, false_iff]
    rintro ⟨hinv, _⟩
    exact h3 (by rw [Bool.and_eq_true, List.isEmpty_iff]; exact ⟨hinv, rfl⟩)

/-- C4: the rows-only rule's diagnosis lists no row-typed child among the
nodes to remove, schedules exactly one synthetic empty row exactly when the
table has zero row-typed children, and after applying the rule's repair the
table has at least one row-typed child. -/
theorem rowsOnly_rule_properties (opts : Options) (fresh : Nat) (t : Node)
    (hnd : (keysOf t).Nodup) :
    (∀ d, tablesValidate opts fresh t = some d →
      (∀ c ∈ d.invalids, c.type ≠ opts.typeRow)
      ∧ (d.add ≠ [] ↔ ∀ c ∈ t.nodes, c.type ≠ opts.typeRow)
      ∧ (d.add = [] ∨ d.add = [makeEmptyRow opts fresh]))
    ∧ 1 ≤ (applyOps t (tablesRepairOps opts fresh t)).nodes.countP (fun n => isRow opts n) := by
  obtain ⟨T, tk, l, a⟩ := t
  have hndl : (keysOfList l).Nodup := by
    rw [keysOf_mk, List.nodup_cons] at hnd
    exact hnd.2
  constructor
  · intro d hd
    obtain ⟨hinv, hadd⟩ := tablesValidate_eq_some hd
    simp only [Node.nodes_mk] at hinv hadd
    refine ⟨?_, ?_, ?_⟩
    · intro c hc hty
      rw [hinv] at hc
      have hcf := (List.mem_filter.mp hc).2
      simp [isRow, hty] at hcf
    · rw [hadd]
      simp only [Node.nodes_mk]
      split
      next hcond =>
        simp only [ne_eq, reduceCtorEq, not_false_iff, true_iff]
        intro c hc hty
        have hall := List.filter_length_eq_length.mp (beq_iff_eq.mp hcond) c hc
        simp [isRow, hty] at hall
      next hcond =>
        refine iff_of_false (by simp) ?_
        intro hall
        exact hcond (beq_iff_eq.mpr (List.filter_length_eq_length.mpr
          (fun c hc => by simp [isRow, hall c hc])))
    · rw [hadd]
      split
      · exact Or.inr rfl
      · exact Or.inl rfl
  · rcases hv : tablesValidate opts fresh (Node.mk T tk l a) with _ | d
    · have hops : tablesRepairOps opts fresh (Node.mk T tk l a) = [] := by
        simp [tablesRepairOps, hv]
      rw [hops]
      obtain ⟨hinv, hne⟩ := tablesValidate_eq_none_iff.mp hv
      simp only [Node.nodes_mk] at hinv hne
      simp only [applyOps_nil, Node.nodes_mk]
      have hall : ∀ c ∈ l, isRow opts c = true := by
        intro c hc
        have hcf := List.filter_eq_nil_iff.mp hinv c hc
        simpa using hcf
      rw [List.countP_eq_length.mpr hall]
      have : l ≠ [] := hne
      exact Nat.one_le_iff_ne_zero.mpr (by simpa [List.length_eq_zero] using this)
    · have hops : tablesRepairOps opts fresh (Node.mk T tk l a)
          = tablesNormalizeOps (Node.mk T tk l a) d := by
        simp [tablesRepairOps, hv]
      rw [hops]
      obtain ⟨hinv, hadd⟩ := tablesValidate_eq_some hv
      simp only [Node.nodes_mk] at hinv hadd
      unfold tablesNormalizeOps
      rw [applyOps_append]
      have hrem : applyOps (Node.mk T tk l a) (d.invalids.map (fun c => Op.removeNode c.key false))
          = Node.mk T tk (l.filter (fun c => isRow opts c)) a := by
        have hmm : d.invalids.map (fun c => Op.removeNode c.key false)
            = (d.invalids.map Node.key).map (fun k => Op.removeNode k false) := by
          rw [List.map_map]
          rfl
        rw [hmm, applyRemovalsTop T tk a (d.invalids.map Node.key) l ?hyp]
        case hyp =>
          intro k hk c hc hmem
          rcases List.mem_map.mp hk with ⟨v, hv', rfl⟩
          rw [hinv] at hv'
          have hvmem := List.mem_of_mem_filter hv'
          rw [eq_of_key_mem hndl hvmem hc hmem]
        congr 1
        refine List.filter_congr ?_
        intro c hc
        by_cases hr : isRow opts c = true
        · rw [hr]
          have hcf : ((d.invalids.map Node.key).contains c.key) = false := by
            rw [Bool.eq_false_iff]
            intro hcon
            rcases List.mem_map.mp (nat_contains_iff.mp hcon) with ⟨v, hv2, hkey⟩
            rw [hinv] at hv2
            have hvl := List.mem_of_mem_filter hv2
            have heq := eq_of_key_eq hndl hvl hc hkey
            subst heq
            have hflt := (List.mem_filter.mp hv2).2
            simp [hr] at hflt
          rw [hcf]
          rfl
        · have hr' : isRow opts c = false := Bool.eq_false_iff.mpr hr
          rw [hr']
          have hcmem : c ∈ l.filter (fun n => !(isRow opts n)) :=
            List.mem_filter.mpr ⟨hc, by rw [hr']; rfl⟩
          have hct : ((d.invalids.map Node.key).contains c.key) = true := by
            rw [nat_contains_iff, hinv]
            exact List.mem_map_of_mem Node.key hcmem
          rw [hct]
          rfl
      rw [hrem, hadd]
      split
      next hcond =>
        simp only [List.map_cons, List.map_nil, Node.key_mk]
        rw [show applyOps (Node.mk T tk (l.filter (fun c => isRow opts c)) a)
            [Op.insertNode tk 0 (makeEmptyRow opts fresh) true]
          = insertByKey tk 0 (makeEmptyRow opts fresh)
              (Node.mk T tk (l.filter (fun c => isRow opts c)) a) from rfl]
        rw [insertByKey_mk, if_pos rfl, insertAt_zero]
        simp only [Node.nodes_mk, List.countP_cons]
        have hrow : isRow opts (makeEmptyRow opts fresh) = true := by
          simp [isRow, makeEmptyRow]
        simp [hrow]
      next hcond =>
        simp only [List.map_nil, applyOps_nil, Node.nodes_mk]
        have hex : ∃ c ∈ l, isRow opts c = true := by
          by_contra hno
          push_neg at hno
          apply hcond
          refine beq_iff_eq.mpr (List.filter_length_eq_length.mpr ?_)
          intro c hc
          have := hno c hc
          simp [Bool.eq_false_iff.mpr this]
        rcases hex with ⟨c, hc, hcr⟩
        have hcm : c ∈ l.filter (fun n => isRow opts n) := List.mem_filter.mpr ⟨hc, hcr⟩
        have hlen : (l.filter (fun n => isRow opts n)).countP (fun n => isRow opts n)
            = (l.filter (fun n => isRow opts n)).length :=
          List.countP_eq_length.mpr (fun x hx => (List.mem_filter.mp hx).2)
        rw [hlen]
        exact List.length_pos.mpr (List.ne_nil_of_mem hcm)

/-- C4 witness: a table with two paragraph children has a row after the
rows-only repair. -/
theorem rowsOnly_rule_properties_witness :
    (keysOf tableTwoParas).Nodup
    ∧ 1 ≤ (applyOps tableTwoParas (tablesRepairOps optsStd 10 tableTwoParas)).nodes.countP
        (fun n => isRow optsStd n) := by
  have hnd : (keysOf tableTwoParas).Nodup := by decide
  exact ⟨hnd, (rowsOnly_rule_properties optsStd 10 tableTwoParas hnd).2⟩

/-- C5 (counterexample): the childless table with a one-entry align list
satisfies the claim's validity predicate (vacuously for the rows, and its
align length equals `columns = 1`), yet the alignment rule's validate does
not return `null` — it throws — and the pipeline propagates the failure
instead of producing no repair. -/
theorem validTable_pipeline_counterexample :
    validTableClaim optsStd childlessAlignedTable
    ∧ alignValidate optsStd childlessAlignedTable = .error ()
    ∧ validateNode optsStd 100 childlessAlignedTable = .error () := by
  refine ⟨⟨?_, ?_, rfl⟩, rfl, rfl⟩
  · intro c hc
    cases hc
  · intro c hc
    cases hc

/-- C5 (amended): on a table with at least one child that satisfies all the
invariants, every configured rule's validate returns `null` and the
pipeline produces no repair. -/
theorem validTable_no_diagnosis (opts : Options) (fresh : Nat) (t : Node)
    (hv : validTableClaim opts t) (hne : t.nodes ≠ []) :
    rowsValidate opts t = none ∧ alignValidate opts t = .ok none
      ∧ validateNode opts fresh t = .ok none := by
  obtain ⟨hrowty, hcells, halign⟩ := hv
  have hrows : t.nodes.filter (fun n => isRow opts n) = t.nodes :=
    List.filter_eq_self.mpr (fun c hc => by simp [isRow, hrowty c hc])
  have hrv : rowsValidate opts t = none := by
    refine (rowsValidate_eq_none_iff opts t).mpr ?_
    intro r hr
    rw [hrows] at hr
    refine (rowEntryFor_eq_none_iff _ _ _).mpr ⟨?_, ?_⟩
    · rw [List.filter_eq_nil_iff]
      intro x hx
      simp [isCell, (hcells r hr).2 x hx]
    · have hcount : countCells opts r = r.nodes.length := by
        rw [countCells]
        exact List.countP_eq_length.mpr (fun x hx => by simp [isCell, (hcells r hr).2 x hx])
      rw [hcount, (hcells r hr).1]
  have hav : alignValidate opts t = .ok none := by
    rcases hn : t.nodes with _ | ⟨row, rest⟩
    · exact absurd hn hne
    · have hrmem : row ∈ t.nodes := by rw [hn]; simp
      rw [alignValidate_of_head_row hn (hrowty row hrmem),
        if_pos (by rw [halign, (hcells row hrmem).1])]
  refine ⟨hrv, hav, ?_⟩
  have hv1 : toValidateNode (rowsRule opts fresh) t = .ok none := by
    refine toValidateNode_ok_none _ _ ?_
    show Except.ok (rowsValidate opts t) = _
    rw [hrv]
  have hv2 : toValidateNode (alignRule opts) t = .ok none :=
    toValidateNode_ok_none _ _ hav
  show findValidator _ t = _
  rw [findValidator_cons_none hv1, findValidator_cons_none hv2]
  rfl

/-- C5 witness: the valid one-row one-cell table with align `["left"]`
yields no repair. -/
theorem validTable_no_diagnosis_witness :
    (validTableClaim optsStd validOneCellTable ∧ validOneCellTable.nodes ≠ [])
    ∧ validateNode optsStd 100 validOneCellTable = .ok none := by
  have hv : validTableClaim optsStd validOneCellTable := by
    refine ⟨?_, ?_, rfl⟩
    · intro c hc
      rcases List.mem_singleton.mp hc with rfl
      rfl
    · intro c hc
      rcases List.mem_singleton.mp hc with rfl
      refine ⟨rfl, ?_⟩
      intro x hx
      rcases List.mem_singleton.mp hx with rfl
      rfl
  have hne : validOneCellTable.nodes ≠ [] := by
    intro h
    cases h
  exact ⟨⟨hv, hne⟩, (validTable_no_diagnosis optsStd 100 validOneCellTable hv hne).2.2⟩

/-- C6: the pipeline evaluates the configured validators in order and
returns the repair closure of the first rule whose diagnosis is non-null;
the result does not depend on the validators after that one; when a
validator declines the pipeline moves on, and when all decline it returns
no repair; and `validateNode` is exactly this first-match search over the
two configured rules. -/
theorem firstMatch_pipeline (v : Validator) (rest rest2 : List Validator) (n : Node) :
    (∀ c, v n = .ok (some c) →
      findValidator (v :: rest) n = .ok (some c)
        ∧ findValidator (v :: rest) n = findValidator (v :: rest2) n)
    ∧ (v n = .ok none → findValidator (v :: rest) n = findValidator rest n)
    ∧ ((∀ w ∈ v :: rest, w n = .ok none) → findValidator (v :: rest) n = .ok none)
    ∧ (∀ opts fresh, validateNode opts fresh n =
        findValidator [toValidateNode (rowsRule opts fresh), toValidateNode (alignRule opts)] n) := by
  refine ⟨?_, fun h => findValidator_cons_none h,
    fun h => findValidator_of_all_none _ n h, fun _ _ => rfl⟩
  intro c h
  exact ⟨findValidator_cons_some h,
    by rw [findValidator_cons_some h, @findValidator_cons_some v rest2 n c h]⟩

/-- C6 witness: on the uneven table the column-count validator fires first
and its repair closure is returned without consulting the align validator;
on a valid table the first validator declines and the search moves on. -/
theorem firstMatch_pipeline_witness :
    findValidator [toValidateNode (rowsRule optsStd 50), toValidateNode (alignRule optsStd)]
        tableUneven
      = .ok (some (fun change => change ++ rowsNormalizeOps optsStd tableUnevenDiag 50))
    ∧ findValidator [toValidateNode (rowsRule optsStd 50), toValidateNode (alignRule optsStd)]
        validOneCellTable
      = findValidator [toValidateNode (alignRule optsStd)] validOneCellTable
    ∧ validateNode optsStd 50 validOneCellTable =
        findValidator [toValidateNode (rowsRule optsStd 50), toValidateNode (alignRule optsStd)]
          validOneCellTable := by
  refine ⟨?_, ?_, ?_⟩
  · exact ((firstMatch_pipeline (toValidateNode (rowsRule optsStd 50))
      [toValidateNode (alignRule optsStd)] [] tableUneven).1 _ rfl).1
  · exact (firstMatch_pipeline (toValidateNode (rowsRule optsStd 50))
      [toValidateNode (alignRule optsStd)] [] validOneCellTable).2.1 rfl
  · exact (firstMatch_pipeline (toValidateNode (rowsRule optsStd 50))
      [toValidateNode (alignRule optsStd)] [] validOneCellTable).2.2.2 optsStd 50

theorem child_key_mem_keysOf {v n : Node} (h : v ∈ n.nodes) : v.key ∈ keysOf n := by
  cases n
  rw [keysOf_mk]
  exact List.mem_cons_of_mem _ (mem_keysOfList.mpr ⟨v, h, self_mem_keysOf v⟩)

theorem children_keys_subset (n : Node) : keysOfList n.nodes ⊆ keysOf n := by
  cases n
  rw [keysOf_mk]
  exact fun x hx => List.mem_cons_of_mem _ hx

theorem forall₂_mem_right {R : Node → Node → Prop} :
    ∀ {l l' : List Node}, List.Forall₂ R l l' → ∀ {b}, b ∈ l' → ∃ a ∈ l, R a b := by
  intro l l' h
  induction h with
  | nil => intro b hb; cases hb
  | cons hab _ ih =>
    intro b hb
    rcases List.mem_cons.mp hb with rfl | hb
    · exact ⟨_, by simp, hab⟩
    · rcases ih hb with ⟨a, ha, hr⟩
      exact ⟨a, by simp [ha], hr⟩

theorem forall₂_map_right {R S : Node → Node → Prop} {g : Node → Node} :
    ∀ {l l' : List Node}, List.Forall₂ R l l' →
      (∀ a b, a ∈ l → R a b → S a (g b)) → List.Forall₂ S l (l'.map g) := by
  intro l l' h
  induction h with
  | nil => intro _; exact List.Forall₂.nil
  | cons hab htail ih =>
    intro hpt
    rw [List.map_cons]
    exact List.Forall₂.cons (hpt _ _ (by simp) hab)
      (ih (fun a b ha hr => hpt a b (by simp [ha]) hr))

/-- The effect of one diagnosis entry's ops on a one-level table: the
children carrying the row's key (the row itself) get their non-cell
children removed and `add` fresh cells prepended; everything else is
untouched. -/
theorem applyEntry (opts : Options) (T : String) (tk : Nat) (a : Option (List String))
    (r : Node) (f : Nat) (cs' : List Node)
    (htk : tk ≠ r.key)
    (hndr : (keysOf r).Nodup)
    (hloc : ∀ c ∈ cs', c.key ≠ r.key → ∀ k ∈ keysOf r, k ∉ keysOf c)
    (hroot : ∀ c ∈ cs', ∀ v ∈ r.nodes, c.key ≠ v.key)
    (hre : ∀ c ∈ cs', c.key = r.key → c = r)
    (e : RowEntry) (he : e.row = r)
    (hinv : e.invalids = r.nodes.filter (fun n => !(isCell opts n))) :
    applyOps (Node.mk T tk cs' a) (entryOps opts f e)
      = Node.mk T tk (cs'.map (fun c =>
          if c.key = r.key then
            withNodes r ((((List.range e.add.toNat).map
                (fun i => makeEmptyCell opts (f + 2 * i))).reverse)
              ++ r.nodes.filter (fun n => isCell opts n))
          else c)) a := by
  have hndrn : (keysOfList r.nodes).Nodup := by
    rcases r with ⟨rt, rk, rns, ra⟩
    rw [keysOf_mk, List.nodup_cons] at hndr
    exact hndr.2
  unfold entryOps
  rw [applyOps_append]
  have hks : e.invalids.map (fun c => Op.removeNode c.key false)
      = (e.invalids.map Node.key).map (fun k => Op.removeNode k false) := by
    rw [List.map_map]
    rfl
  have hremeq := applyRemovals T tk a r.key (e.invalids.map Node.key) cs'
    (by
      intro k hk c hc hck
      rcases List.mem_map.mp hk with ⟨v, hv, rfl⟩
      rw [hinv] at hv
      exact hloc c hc hck v.key (child_key_mem_keysOf (List.mem_of_mem_filter hv)))
    (by
      intro k hk c hc
      rcases List.mem_map.mp hk with ⟨v, hv, rfl⟩
      rw [hinv] at hv
      exact hroot c hc v (List.mem_of_mem_filter hv))
    (by
      intro k hk c hc hck x hx hkx
      rcases List.mem_map.mp hk with ⟨v, hv, rfl⟩
      rw [hinv] at hv
      rw [hre c hc hck] at hx
      have heq := eq_of_key_mem hndrn (List.mem_of_mem_filter hv) hx hkx
      rw [heq])
  rw [hks, hremeq]
  have hstep1 : cs'.map (fun c =>
        if c.key = r.key then
          withNodes c (c.nodes.filter (fun x => !((e.invalids.map Node.key).contains x.key)))
        else c)
      = cs'.map (fun c =>
          if c.key = r.key then withNodes r (r.nodes.filter (fun n => isCell opts n)) else c) := by
    refine List.map_congr_left ?_
    intro c hc
    by_cases hck : c.key = r.key
    · rw [if_pos hck, if_pos hck, hre c hc hck]
      congr 1
      refine List.filter_congr ?_
      intro x hx
      by_cases hxc : isCell opts x = true
      · rw [hxc]
        have hfree : ((e.invalids.map Node.key).contains x.key) = false := by
          rw [Bool.eq_false_iff]
          intro hcon
          rcases List.mem_map.mp (nat_contains_iff.mp hcon) with ⟨v, hv, hkey⟩
          rw [hinv] at hv
          have hvr := List.mem_of_mem_filter hv
          have heq := eq_of_key_eq hndrn hvr hx hkey
          subst heq
          have hbad := (List.mem_filter.mp hv).2
          simp [hxc] at hbad
        rw [hfree]
        rfl
      · have hxc' : isCell opts x = false := Bool.eq_false_iff.mpr hxc
        rw [hxc']
        have hmem : x ∈ e.invalids := by
          rw [hinv]
          exact List.mem_filter.mpr ⟨hx, by rw [hxc']; rfl⟩
        have hhit : ((e.invalids.map Node.key).contains x.key) = true :=
          nat_contains_iff.mpr (List.mem_map_of_mem Node.key hmem)
        rw [hhit]
        rfl
    · rw [if_neg hck, if_neg hck]
  rw [hstep1]
  have hins : (List.range e.add.toNat).map
        (fun i => Op.insertNode e.row.key 0 (makeEmptyCell opts (f + 2 * i)) false)
      = ((List.range e.add.toNat).map (fun i => makeEmptyCell opts (f + 2 * i))).map
          (fun d => Op.insertNode r.key 0 d false) := by
    rw [List.map_map, he]
    rfl
  have hinseq := applyInserts T tk a r.key htk
    ((List.range e.add.toNat).map (fun i => makeEmptyCell opts (f + 2 * i)))
    (cs'.map (fun c =>
      if c.key = r.key then withNodes r (r.nodes.filter (fun n => isCell opts n)) else c))
    (by
      intro c1 hc1 hk1
      rcases List.mem_map.mp hc1 with ⟨c, hc, rfl⟩
      by_cases hck : c.key = r.key
      · rw [if_pos hck, withNodes_key] at hk1
        exact absurd rfl hk1
      · rw [if_neg hck] at hk1 ⊢
        exact hloc c hc hk1 r.key (self_mem_keysOf r))
  rw [hins, hinseq, List.map_map]
  congr 1
  refine List.map_congr_left ?_
  intro c hc
  simp only [Function.comp_apply]
  by_cases hck : c.key = r.key
  · rw [if_pos hck, if_pos (by rw [withNodes_key]), withNodes_nodes, withNodes_withNodes,
      if_pos hck]
  · rw [if_neg hck, if_neg hck, if_neg hck]

theorem root_not_mem_children_keys {n : Node} (h : (keysOf n).Nodup) :
    n.key ∉ keysOfList n.nodes := by
  cases n
  rw [keysOf_mk, List.nodup_cons] at h
  simpa using h.1

theorem keysOf_withNodes (c : Node) (L : List Node) :
    keysOf (withNodes c L) = c.key :: keysOfList L := by
  cases c
  rfl

theorem countCells_withNodes (opts : Options) (c : Node) (L : List Node) :
    countCells opts (withNodes c L) = L.countP (fun n => isCell opts n) := rfl

/-- The row-by-row induction behind the column-count repair: processing the
pending rows turns every non-conforming pending row into a row with exactly
`columns` cells (freshly inserted cells prepended, original cells kept in
order) and touches nothing else. -/
theorem rowsNormalize_main (opts : Options) (T : String) (tk : Nat) (a : Option (List String))
    (cs : List Node) (fresh0 : Nat)
    (hnd : (keysOf (Node.mk T tk cs a)).Nodup)
    (hb : ∀ x ∈ keysOf (Node.mk T tk cs a), x < fresh0) :
    ∀ (rs : List Node) (f : Nat) (cs' : List Node),
      fresh0 ≤ f →
      (∀ r ∈ rs, r ∈ cs ∧ isRow opts r = true) →
      (rs.map Node.key).Nodup →
      List.Forall₂ (RState opts (tableColumns opts (Node.mk T tk cs a)) fresh0 rs) cs cs' →
      ∃ cs2,
        applyOps (Node.mk T tk cs' a)
            (rowsNormalizeOps opts
              (rs.filterMap (rowEntryFor opts (tableColumns opts (Node.mk T tk cs a)))) f)
          = Node.mk T tk cs2 a
        ∧ List.Forall₂ (RState opts (tableColumns opts (Node.mk T tk cs a)) fresh0 []) cs cs2 := by
  have hndcs : (keysOfList cs).Nodup := by
    rw [keysOf_mk, List.nodup_cons] at hnd
    exact hnd.2
  have htkcs : tk ∉ keysOfList cs := by
    rw [keysOf_mk, List.nodup_cons] at hnd
    exact hnd.1
  intro rs
  induction rs with
  | nil =>
    intro f cs' _ _ _ hcorr
    exact ⟨cs', rfl, hcorr⟩
  | cons r rest ih =>
    intro f cs' hf hmem hnds hcorr
    obtain ⟨hrcs, hrrow⟩ := hmem r (by simp)
    have hndr : (keysOf r).Nodup := nodup_keysOf_of_mem hndcs hrcs
    have hrkey_lt : ∀ k ∈ keysOf r, k < fresh0 := by
      intro k hk
      refine hb k ?_
      rw [keysOf_mk]
      exact List.mem_cons_of_mem _ (keysOf_subset_keysOfList hrcs hk)
    have hcs_of : ∀ c' ∈ cs',
        ∃ c ∈ cs, RState opts (tableColumns opts (Node.mk T tk cs a)) fresh0 (r :: rest) c c' :=
      fun _ hc' => forall₂_mem_right hcorr hc'
    have hndrest : (rest.map Node.key).Nodup := by
      rw [List.map_cons, List.nodup_cons] at hnds
      exact hnds.2
    have hrnotrest : r ∉ rest := by
      intro hmm
      rw [List.map_cons, List.nodup_cons] at hnds
      exact hnds.1 (List.mem_map_of_mem Node.key hmm)
    rcases hfe : rowEntryFor opts (tableColumns opts (Node.mk T tk cs a)) r with _ | e
    · -- conforming row: no ops emitted for it
      simp only [List.filterMap_cons, hfe]
      refine ih f cs' hf (fun x hx => hmem x (by simp [hx])) hndrest ?_
      refine hcorr.imp ?_
      intro c c' hR
      obtain ⟨hkey, htype, hbound, hpend, hnrow, hproc⟩ := hR
      refine ⟨hkey, htype, hbound, fun hcr => hpend (by simp [hcr]), hnrow, ?_⟩
      intro hrow hnotin
      by_cases hcr : c = r
      · have hc'eq : c' = c := hpend (by simp [hcr])
        obtain ⟨hinv0, hcnt⟩ := (rowEntryFor_eq_none_iff _ _ _).mp (hcr ▸ hfe)
        refine ⟨by rw [hc'eq, hcnt], [], by simp, by rw [hc'eq]; simp⟩
      · refine hproc hrow ?_
        intro hmm
        rcases List.mem_cons.mp hmm with h | h
        · exact hcr h
        · exact hnotin h
    · -- non-conforming row: one entry block then the rest
      obtain ⟨herow, heinv, headd⟩ := rowEntryFor_eq_some hfe
      simp only [List.filterMap_cons, hfe]
      rw [show rowsNormalizeOps opts
            (e :: rest.filterMap (rowEntryFor opts (tableColumns opts (Node.mk T tk cs a)))) f
          = entryOps opts f e
            ++ rowsNormalizeOps opts
                (rest.filterMap (rowEntryFor opts (tableColumns opts (Node.mk T tk cs a))))
                (f + 2 * e.add.toNat) from rfl]
      rw [applyOps_append]
      have htk : tk ≠ r.key := by
        intro hcon
        exact htkcs (hcon ▸ keysOf_subset_keysOfList hrcs (self_mem_keysOf r))
      have hentry := applyEntry opts T tk a r f cs' htk hndr
        (by
          intro c' hc' hck k hkr hkc'
          rcases hcs_of c' hc' with ⟨c, hc, hR⟩
          obtain ⟨hkey, _, hbound, _, _, _⟩ := hR
          have hcne : c ≠ r := by
            intro hcon
            exact hck (by rw [hkey, hcon])
          rcases hbound k hkc' with hkc | hge
          · exact keysOf_disjoint_of_ne hndcs hrcs hc (fun hx => hcne hx.symm) k hkr hkc
          · have := hrkey_lt k hkr
            omega)
        (by
          intro c' hc' v hv
          rcases hcs_of c' hc' with ⟨c, hc, hR⟩
          obtain ⟨hkey, _, _, _, _, _⟩ := hR
          rw [hkey]
          intro hcon
          by_cases hcr : c = r
          · subst hcr
            exact root_not_mem_children_keys hndr
              (by rw [hcon]; exact mem_keysOfList.mpr ⟨v, hv, self_mem_keysOf v⟩)
          · exact keysOf_disjoint_of_ne hndcs hc hrcs hcr c.key (self_mem_keysOf c)
              (by rw [hcon]; exact child_key_mem_keysOf hv))
        (by
          intro c' hc' hck
          rcases hcs_of c' hc' with ⟨c, hc, hR⟩
          obtain ⟨hkey, _, _, hpend, _, _⟩ := hR
          have hceq : c = r := eq_of_key_eq hndcs hc hrcs (by rw [← hkey, hck])
          rw [hpend (by simp [hceq]), hceq])
        e herow heinv
      rw [hentry]
      have hcorr2 : List.Forall₂
          (RState opts (tableColumns opts (Node.mk T tk cs a)) fresh0 rest) cs
          (cs'.map (fun c =>
            if c.key = r.key then
              withNodes r ((((List.range e.add.toNat).map
                  (fun i => makeEmptyCell opts (f + 2 * i))).reverse)
                ++ r.nodes.filter (fun n => isCell opts n))
            else c)) := by
        refine forall₂_map_right hcorr ?_
        intro c c' hcin hR
        obtain ⟨hkey, htype, hbound, hpend, hnrow, hproc⟩ := hR
        by_cases hck : c'.key = r.key
        · have hceq : c = r := eq_of_key_eq hndcs hcin hrcs (by rw [← hkey, hck])
          rw [if_pos hck]
          subst hceq
          have hds_all : ∀ x ∈ (((List.range e.add.toNat).map
              (fun i => makeEmptyCell opts (f + 2 * i))).reverse), isCell opts x = true := by
            intro x hx
            rw [List.mem_reverse] at hx
            rcases List.mem_map.mp hx with ⟨i, _, rfl⟩
            simp [isCell, makeEmptyCell]
          have hds_ty : ∀ x ∈ (((List.range e.add.toNat).map
              (fun i => makeEmptyCell opts (f + 2 * i))).reverse), x.type = opts.typeCell := by
            intro x hx
            rw [List.mem_reverse] at hx
            rcases List.mem_map.mp hx with ⟨i, _, rfl⟩
            rfl
          refine ⟨by rw [withNodes_key], by rw [withNodes_type], ?_, ?_, ?_, ?_⟩
          · -- key bound
            intro x hx
            rw [keysOf_withNodes] at hx
            rcases List.mem_cons.mp hx with rfl | hx
            · exact Or.inl (self_mem_keysOf c)
            · rcases mem_keysOfList.mp hx with ⟨y, hy, hxy⟩
              rcases List.mem_append.mp hy with hy | hy
              · rw [List.mem_reverse] at hy
                rcases List.mem_map.mp hy with ⟨i, _, rfl⟩
                rw [show keysOf (makeEmptyCell opts (f + 2 * i))
                    = [f + 2 * i, f + 2 * i + 1] from rfl] at hxy
                rcases List.mem_cons.mp hxy with rfl | hxy
                · right
                  omega
                · rcases List.mem_singleton.mp hxy with rfl
                  right
                  omega
              · refine Or.inl (children_keys_subset c
                  (mem_keysOfList.mpr ⟨y, List.mem_of_mem_filter hy, hxy⟩))
          · -- the row is not pending any more
            intro hmm
            exact absurd hmm hrnotrest
          · -- the row is row-typed
            intro hfalse
            rw [hrrow] at hfalse
            cases hfalse
          · -- processed clause
            intro _ _
            have h1 : (((List.range e.add.toNat).map
                (fun i => makeEmptyCell opts (f + 2 * i))).reverse).countP
                  (fun n => isCell opts n)
                = (((List.range e.add.toNat).map
                    (fun i => makeEmptyCell opts (f + 2 * i))).reverse).length :=
              List.countP_eq_length.mpr hds_all
            have hdslen : (((List.range e.add.toNat).map
                (fun i => makeEmptyCell opts (f + 2 * i))).reverse).length = e.add.toNat := by
              simp
            have h2a : (c.nodes.filter (fun n => isCell opts n)).countP
                  (fun n => isCell opts n)
                = (c.nodes.filter (fun n => isCell opts n)).length :=
              List.countP_eq_length.mpr (fun x hx => (List.mem_filter.mp hx).2)
            have h2b : (c.nodes.filter (fun n => isCell opts n)).length = countCells opts c :=
              (List.countP_eq_length_filter (p := fun n => isCell opts n) c.nodes).symm
            have hcle : countCells opts c ≤ tableColumns opts (Node.mk T tk cs a) :=
              countCells_le_tableColumns (by
                rw [Node.nodes_mk]
                exact List.mem_filter.mpr ⟨hrcs, hrrow⟩)
            constructor
            · rw [countCells_withNodes, List.countP_append, h1, hdslen, h2a, h2b, headd]
              omega
            · refine ⟨(((List.range e.add.toNat).map
                  (fun i => makeEmptyCell opts (f + 2 * i))).reverse), hds_ty, ?_⟩
              rw [withNodes_nodes, List.filter_append,
                List.filter_eq_self.mpr hds_all,
                List.filter_eq_self.mpr
                  (fun x hx => (List.mem_filter.mp hx).2 :
                    ∀ x ∈ c.nodes.filter (fun n => isCell opts n), isCell opts x = true)]
        · rw [if_neg hck]
          have hcne : c ≠ r := by
            intro hcon
            exact hck (by rw [hkey, hcon])
          refine ⟨hkey, htype, hbound, fun hcr => hpend (by simp [hcr]), hnrow, ?_⟩
          intro hrow hnotin
          refine hproc hrow ?_
          intro hmm
          rcases List.mem_cons.mp hmm with h | h
          · exact hcne h
          · exact hnotin h
      obtain ⟨cs2, happ, hfin⟩ := ih (f + 2 * e.add.toNat)
        (cs'.map (fun c =>
          if c.key = r.key then
            withNodes r ((((List.range e.add.toNat).map
                (fun i => makeEmptyCell opts (f + 2 * i))).reverse)
              ++ r.nodes.filter (fun n => isCell opts n))
          else c))
        (by omega) (fun x hx => hmem x (by simp [hx])) hndrest hcorr2
      exact ⟨cs2, happ, hfin⟩

theorem rowsRepairOps_eq (opts : Options) (t : Node) (fresh : Nat) :
    rowsRepairOps opts t fresh
      = rowsNormalizeOps opts
          ((t.nodes.filter (fun n => isRow opts n)).filterMap
            (rowEntryFor opts (tableColumns opts t))) fresh := by
  rcases hv : rowsValidate opts t with _ | es
  · have hnil : (t.nodes.filter (fun n => isRow opts n)).filterMap
        (rowEntryFor opts (tableColumns opts t)) = [] :=
      List.filterMap_eq_nil_iff.mpr ((rowsValidate_eq_none_iff opts t).mp hv)
    rw [hnil]
    simp only [rowsRepairOps, hv]
    rfl
  · rw [← rowsValidate_eq_some hv]
    simp [rowsRepairOps, hv]

/-- C1: applying the column-count rule's repair to its own diagnosis yields
a table in which every row-typed child has exactly
`max(1, max cell-count over rows)` cell-typed children, and each child
keeps its key and type with its pre-existing cells preserved in order (new
cells are only prepended). -/
theorem colcount_repair_postcondition (opts : Options) (t : Node) (fresh : Nat)
    (hnd : (keysOf t).Nodup) (hb : ∀ x ∈ keysOf t, x < fresh) :
    (∀ r2 ∈ (applyOps t (rowsRepairOps opts t fresh)).nodes,
      isRow opts r2 = true → countCells opts r2 = tableColumns opts t)
    ∧ List.Forall₂
        (fun c c2 => c2.key = c.key ∧ c2.type = c.type
          ∧ ∃ new, (∀ x ∈ new, x.type = opts.typeCell)
              ∧ c2.nodes.filter (fun n => isCell opts n)
                = new ++ c.nodes.filter (fun n => isCell opts n))
        t.nodes (applyOps t (rowsRepairOps opts t fresh)).nodes := by
  obtain ⟨T, tk, cs, a⟩ := t
  have hndcs : (keysOfList cs).Nodup := by
    rw [keysOf_mk, List.nodup_cons] at hnd
    exact hnd.2
  have hinit : List.Forall₂ (RState opts (tableColumns opts (Node.mk T tk cs a)) fresh
      (cs.filter (fun n => isRow opts n))) cs cs := by
    rw [List.forall₂_same]
    intro c hc
    refine ⟨rfl, rfl, fun x hx => Or.inl hx, fun _ => rfl, fun _ => rfl, ?_⟩
    intro hrow hnot
    exact absurd (List.mem_filter.mpr ⟨hc, hrow⟩) hnot
  have hrs_nodup : ((cs.filter (fun n => isRow opts n)).map Node.key).Nodup :=
    ((List.filter_sublist cs).map Node.key).nodup (roots_nodup hndcs)
  obtain ⟨cs2, happ, hfin⟩ := rowsNormalize_main opts T tk a cs fresh hnd hb
    (cs.filter (fun n => isRow opts n)) fresh cs (le_refl fresh)
    (fun r hr => ⟨List.mem_of_mem_filter hr, (List.mem_filter.mp hr).2⟩)
    hrs_nodup hinit
  rw [rowsRepairOps_eq opts (Node.mk T tk cs a) fresh]
  simp only [Node.nodes_mk]
  rw [happ]
  simp only [Node.nodes_mk]
  constructor
  · intro r2 hr2 hrow
    rcases forall₂_mem_right hfin hr2 with ⟨c, hc, hR⟩
    obtain ⟨hkey, htype, hbound, _, hnrow, hproc⟩ := hR
    have hcrow : isRow opts c = true := by
      rw [isRow, ← htype]
      exact hrow
    exact (hproc hcrow (by intro h; cases h)).1
  · refine hfin.imp ?_
    intro c c2 hR
    obtain ⟨hkey, htype, _, _, hnrow, hproc⟩ := hR
    refine ⟨hkey, htype, ?_⟩
    by_cases hrow : isRow opts c = true
    · exact (hproc hrow (by intro h; cases h)).2
    · have hceq : c2 = c := hnrow (Bool.eq_false_iff.mpr hrow)
      exact ⟨[], by simp, by rw [hceq, List.nil_append]⟩

/-- C1 witness: the scenario table with rows of 2, 3 and 1 cells is
repaired so that every row has 3 cells. -/
theorem colcount_repair_postcondition_witness :
    ((keysOf tableScenario).Nodup ∧ ∀ x ∈ keysOf tableScenario, x < 100)
    ∧ ∀ r2 ∈ (applyOps tableScenario (rowsRepairOps optsStd tableScenario 100)).nodes,
        isRow optsStd r2 = true → countCells optsStd r2 = tableColumns optsStd tableScenario := by
  have h1 : (keysOf tableScenario).Nodup := by decide
  have h2 : ∀ x ∈ keysOf tableScenario, x < 100 := by decide
  exact ⟨⟨h1, h2⟩, (colcount_repair_postcondition optsStd tableScenario 100 h1 h2).1⟩

@[simp] theorem parentChildPairs_mk (t k ns a) :
    parentChildPairs (.mk t k ns a)
      = ns.map (fun c => (k, c.key)) ++ parentChildPairsList ns := rfl

@[simp] theorem parentChildPairsList_nil : parentChildPairsList [] = [] := rfl

@[simp] theorem parentChildPairsList_cons (c cs) :
    parentChildPairsList (c :: cs) = parentChildPairs c ++ parentChildPairsList cs := rfl

theorem keysOfList_perm_pairsList (ns : List Node)
    (hpt : ∀ c ∈ ns, (keysOf c).Perm (c.key :: (parentChildPairs c).map Prod.snd)) :
    (keysOfList ns).Perm (ns.map Node.key ++ (parentChildPairsList ns).map Prod.snd) := by
  induction ns with
  | nil => simp
  | cons c cs ih =>
    rw [keysOfList_cons, List.map_cons, parentChildPairsList_cons, List.map_append]
    exact ((hpt c (by simp)).append (ih (fun x hx => hpt x (by simp [hx])))).trans
      (List.Perm.cons c.key (List.perm_append_comm_assoc _ _ _))

theorem keysOf_perm_pairs : ∀ n : Node,
    (keysOf n).Perm (n.key :: (parentChildPairs n).map Prod.snd) := by
  intro n
  induction n using Node.strongInduction with
  | h t k ns a ih =>
    rw [keysOf_mk, parentChildPairs_mk, Node.key_mk, List.map_append, List.map_map]
    refine List.Perm.cons k ?_
    have hmap : ns.map (Prod.snd ∘ fun c => (k, c.key)) = ns.map Node.key := rfl
    rw [hmap]
    exact keysOfList_perm_pairsList ns ih

theorem pairs_snd_nodup {t : Node} (hnd : (keysOf t).Nodup) :
    ((parentChildPairs t).map Prod.snd).Nodup :=
  (List.nodup_cons.mp ((keysOf_perm_pairs t).nodup hnd)).2

theorem pair_parent_unique {t : Node} (hnd : (keysOf t).Nodup) {p q k : Nat}
    (hp : (p, k) ∈ parentChildPairs t) (hq : (q, k) ∈ parentChildPairs t) : p = q := by
  have hinj := List.inj_on_of_nodup_map (pairs_snd_nodup hnd)
  have heq := hinj hp hq rfl
  exact congrArg Prod.fst heq

theorem pair_of_child {v n : Node} (h : v ∈ n.nodes) :
    (n.key, v.key) ∈ parentChildPairs n := by
  cases n
  rw [parentChildPairs_mk]
  exact List.mem_append_left _ (List.mem_map_of_mem _ h)

theorem pairs_sub_of_mem_list {c : Node} :
    ∀ {ns : List Node}, c ∈ ns → parentChildPairs c ⊆ parentChildPairsList ns := by
  intro ns
  induction ns with
  | nil => intro h; cases h
  | cons d ds ih =>
    intro h
    rw [parentChildPairsList_cons]
    rcases List.mem_cons.mp h with rfl | h
    · exact List.subset_append_left _ _
    · exact (ih h).trans (List.subset_append_right _ _)

theorem pairs_sub_child {c n : Node} (h : c ∈ n.nodes) :
    parentChildPairs c ⊆ parentChildPairs n := by
  cases n
  rw [parentChildPairs_mk]
  exact (pairs_sub_of_mem_list h).trans (List.subset_append_right _ _)

theorem mem_childrenKeys_iff {p k : Nat} {t : Node} :
    k ∈ childrenKeys p t ↔ (p, k) ∈ parentChildPairs t := by
  rw [childrenKeys]
  constructor
  · intro h
    rcases List.mem_map.mp h with ⟨q, hq, hsnd⟩
    have hfst : (q.1 == p) = true := (List.mem_filter.mp hq).2
    have hq1 : q.1 = p := beq_iff_eq.mp hfst
    have : q = (p, k) := by
      rcases q with ⟨q1, q2⟩
      simp only at hq1 hsnd
      rw [hq1, hsnd]
    exact this ▸ (List.mem_filter.mp hq).1
  · intro h
    refine List.mem_map.mpr ⟨(p, k), List.mem_filter.mpr ⟨h, ?_⟩, rfl⟩
    exact beq_iff_eq.mpr rfl

theorem noRemoveAfterInsert_of_shape :
    ∀ {l1 l2 : List Op}, (∀ o ∈ l1, o.isRemove = true) → (∀ o ∈ l2, o.isRemove = false) →
      noRemoveAfterInsert (l1 ++ l2) = true := by
  have htail : ∀ {l2 : List Op}, (∀ o ∈ l2, o.isRemove = false) →
      noRemoveAfterInsert l2 = true := by
    intro l2
    induction l2 with
    | nil => intro _; rfl
    | cons op rest ih =>
      intro h
      rw [noRemoveAfterInsert, Bool.and_eq_true]
      refine ⟨?_, ih (fun o ho => h o (by simp [ho]))⟩
      rw [Bool.or_eq_true]
      right
      rw [List.all_eq_true]
      intro o ho
      rw [h o (by simp [ho])]
      rfl
  intro l1
  induction l1 with
  | nil =>
    intro l2 _ h2
    rw [List.nil_append]
    exact htail h2
  | cons op rest ih =>
    intro l2 h1 h2
    rw [List.cons_append, noRemoveAfterInsert, Bool.and_eq_true]
    refine ⟨?_, ih (fun o ho => h1 o (by simp [ho])) h2⟩
    rw [Bool.or_eq_true]
    left
    have hrem := h1 op (by simp)
    cases op with
    | removeNode k b => rfl
    | insertNode pk i nd b => cases hrem
    | setNodeAlign k al b => rfl

theorem opsForParent_append (t : Node) (p : Nat) (l1 l2 : List Op) :
    opsForParent t p (l1 ++ l2) = opsForParent t p l1 ++ opsForParent t p l2 := by
  unfold opsForParent
  exact List.filter_append _ _

/-- The block of ops for one entry targets only the entry's own row. -/
theorem opsForParent_entry_ne {opts : Options} {t : Node} {p : Nat} {f : Nat} {e : RowEntry}
    (hnd : (keysOf t).Nodup)
    (hrow : e.row ∈ t.nodes)
    (hinv : e.invalids = e.row.nodes.filter (fun n => !(isCell opts n)))
    (hne : e.row.key ≠ p) :
    opsForParent t p (entryOps opts f e) = [] := by
  unfold opsForParent
  rw [List.filter_eq_nil_iff]
  intro op hop
  unfold entryOps at hop
  rcases List.mem_append.mp hop with hop | hop
  · rcases List.mem_map.mp hop with ⟨v, hv, rfl⟩
    simp only [Bool.not_eq_true]
    rw [Bool.eq_false_iff]
    intro hcon
    have hpair : (p, v.key) ∈ parentChildPairs t := mem_childrenKeys_iff.mp (nat_contains_iff.mp hcon)
    have hpair2 : (e.row.key, v.key) ∈ parentChildPairs t := by
      refine pairs_sub_child hrow ?_
      exact pair_of_child (by rw [hinv] at hv; exact List.mem_of_mem_filter hv)
    exact hne (pair_parent_unique hnd hpair2 hpair)
  · rcases List.mem_map.mp hop with ⟨i, _, rfl⟩
    simp only [Bool.not_eq_true]
    rw [beq_eq_false_iff_ne]
    exact hne

/-- Entry spec extracted from the column-count diagnosis. -/
theorem entriesSpec {opts : Options} {t : Node} {es : List RowEntry}
    (h : rowsValidate opts t = some es) :
    ∀ e ∈ es, e.row ∈ t.nodes ∧ isRow opts e.row = true
      ∧ e.invalids = e.row.nodes.filter (fun n => !(isCell opts n)) := by
  intro e he
  rw [rowsValidate_eq_some h] at he
  rcases List.mem_filterMap.mp he with ⟨r, hr, hre⟩
  obtain ⟨herow, heinv, _⟩ := rowEntryFor_eq_some hre
  subst herow
  exact ⟨List.mem_of_mem_filter hr, (List.mem_filter.mp hr).2, heinv⟩

theorem filterMap_rowEntry_rows_sublist (opts : Options) (columns : Nat) :
    ∀ rows : List Node,
      ((rows.filterMap (rowEntryFor opts columns)).map RowEntry.row).Sublist rows := by
  intro rows
  induction rows with
  | nil => simp
  | cons r rest ih =>
    rw [List.filterMap_cons]
    rcases hfe : rowEntryFor opts columns r with _ | e
    · exact ih.trans (List.sublist_cons_self r rest)
    · rw [List.map_cons]
      obtain ⟨herow, _, _⟩ := rowEntryFor_eq_some hfe
      rw [herow]
      exact ih.cons₂ r

theorem mem_of_mem_opsForParent {t : Node} {p : Nat} {l : List Op} {o : Op}
    (h : o ∈ opsForParent t p l) : o ∈ l := by
  unfold opsForParent at h
  exact List.mem_of_mem_filter h

theorem nodup_children_keys {t : Node} (hnd : (keysOf t).Nodup) :
    (keysOfList t.nodes).Nodup := by
  cases t
  rw [keysOf_mk, List.nodup_cons] at hnd
  exact hnd.2

/-- A diagnosis entry whose row carries key `p` has its whole op block
targeting parent `p`. -/
theorem opsForParent_entry_eq {opts : Options} {t : Node} {p : Nat} {f : Nat} {e : RowEntry}
    (hrow : e.row ∈ t.nodes)
    (hinv : e.invalids = e.row.nodes.filter (fun n => !(isCell opts n)))
    (heq : e.row.key = p) :
    opsForParent t p (entryOps opts f e) = entryOps opts f e := by
  unfold opsForParent
  rw [List.filter_eq_self]
  intro op hop
  unfold entryOps at hop
  rcases List.mem_append.mp hop with hop | hop
  · rcases List.mem_map.mp hop with ⟨v, hv, rfl⟩
    show ((childrenKeys p t).contains v.key) = true
    refine nat_contains_iff.mpr (mem_childrenKeys_iff.mpr ?_)
    rw [← heq]
    exact pairs_sub_child hrow
      (pair_of_child (by rw [hinv] at hv; exact List.mem_of_mem_filter hv))
  · rcases List.mem_map.mp hop with ⟨i, _, rfl⟩
    show (e.row.key == p) = true
    exact beq_iff_eq.mpr heq

/-- The op blocks of entries whose rows all carry keys other than `p`
contribute nothing to the ops targeting `p`. -/
theorem opsForParent_blocks_ne (opts : Options) (t : Node) (p : Nat)
    (hnd : (keysOf t).Nodup) :
    ∀ (es : List RowEntry) (f : Nat),
      (∀ e ∈ es, e.row ∈ t.nodes
        ∧ e.invalids = e.row.nodes.filter (fun n => !(isCell opts n))
        ∧ e.row.key ≠ p) →
      opsForParent t p (rowsNormalizeOps opts es f) = [] := by
  intro es
  induction es with
  | nil => intro f _; rfl
  | cons e rest ih =>
    intro f h
    rw [show rowsNormalizeOps opts (e :: rest) f
        = entryOps opts f e ++ rowsNormalizeOps opts rest (f + 2 * e.add.toNat) from rfl,
      opsForParent_append]
    obtain ⟨h1, h2, h3⟩ := h e (by simp)
    rw [opsForParent_entry_ne hnd h1 h2 h3,
      ih (f + 2 * e.add.toNat) (fun x hx => h x (by simp [hx]))]
    rfl

/-- Along the column-count repair, all the ops targeting one parent come
from that parent's own entry block, removals first. -/
theorem noRA_rowsOps (opts : Options) (t : Node) (p : Nat) (hnd : (keysOf t).Nodup) :
    ∀ (es : List RowEntry) (f : Nat),
      (∀ e ∈ es, e.row ∈ t.nodes
        ∧ e.invalids = e.row.nodes.filter (fun n => !(isCell opts n))) →
      (es.map (fun e => e.row.key)).Nodup →
      noRemoveAfterInsert (opsForParent t p (rowsNormalizeOps opts es f)) = true := by
  intro es
  induction es with
  | nil => intro f _ _; rfl
  | cons e rest ih =>
    intro f hspec hnds
    rw [show rowsNormalizeOps opts (e :: rest) f
        = entryOps opts f e ++ rowsNormalizeOps opts rest (f + 2 * e.add.toNat) from rfl,
      opsForParent_append]
    obtain ⟨h1, h2⟩ := hspec e (by simp)
    by_cases hpe : e.row.key = p
    · rw [opsForParent_entry_eq h1 h2 hpe]
      have hrest : opsForParent t p
          (rowsNormalizeOps opts rest (f + 2 * e.add.toNat)) = [] := by
        apply opsForParent_blocks_ne opts t p hnd
        intro x hx
        obtain ⟨hx1, hx2⟩ := hspec x (by simp [hx])
        refine ⟨hx1, hx2, ?_⟩
        rw [List.map_cons, List.nodup_cons] at hnds
        intro hcon
        apply hnds.1
        rw [hpe, ← hcon]
        exact List.mem_map_of_mem (fun e => e.row.key) hx
      rw [hrest, List.append_nil]
      unfold entryOps
      refine noRemoveAfterInsert_of_shape ?_ ?_
      · intro o ho
        rcases List.mem_map.mp ho with ⟨v, _, rfl⟩
        rfl
      · intro o ho
        rcases List.mem_map.mp ho with ⟨i, _, rfl⟩
        rfl
    · rw [opsForParent_entry_ne hnd h1 h2 hpe, List.nil_append]
      refine ih (f + 2 * e.add.toNat) (fun x hx => hspec x (by simp [hx])) ?_
      rw [List.map_cons, List.nodup_cons] at hnds
      exact hnds.2

/-- C7: for every diagnosis and every parent, the rules' normalize emits
all removal operations targeting that parent before any insertion
operation targeting it (in the column-count repair this holds per
non-conforming row). -/
theorem removals_before_insertions (opts : Options) (t : Node) (fresh : Nat) (p : Nat)
    (hnd : (keysOf t).Nodup) :
    (∀ d, tablesValidate opts fresh t = some d →
      noRemoveAfterInsert (opsForParent t p (tablesNormalizeOps t d)) = true)
    ∧ (∀ es, rowsValidate opts t = some es →
      noRemoveAfterInsert (opsForParent t p (rowsNormalizeOps opts es fresh)) = true) := by
  constructor
  · intro d _
    unfold tablesNormalizeOps
    rw [opsForParent_append]
    refine noRemoveAfterInsert_of_shape ?_ ?_
    · intro o ho
      rcases List.mem_map.mp (mem_of_mem_opsForParent ho) with ⟨c, _, rfl⟩
      rfl
    · intro o ho
      rcases List.mem_map.mp (mem_of_mem_opsForParent ho) with ⟨c, _, rfl⟩
      rfl
  · intro es hes
    have hspec := entriesSpec hes
    have hnds : (es.map (fun e => e.row.key)).Nodup := by
      have hsub := filterMap_rowEntry_rows_sublist opts (tableColumns opts t)
        (t.nodes.filter (fun n => isRow opts n))
      rw [← rowsValidate_eq_some hes] at hsub
      have hsub2 := hsub.map Node.key
      rw [List.map_map] at hsub2
      have hroots : ((t.nodes.filter (fun n => isRow opts n)).map Node.key).Nodup :=
        ((List.filter_sublist _).map Node.key).nodup (roots_nodup (nodup_children_keys hnd))
      exact hsub2.nodup hroots
    exact noRA_rowsOps opts t p hnd es fresh
      (fun e he => ⟨(hspec e he).1, (hspec e he).2.2⟩) hnds

/-- C7 witness: on the uneven table, the ops targeting the short row (key
1) have removals (none here) before the single insertion. -/
theorem removals_before_insertions_witness :
    (keysOf tableUneven).Nodup
    ∧ noRemoveAfterInsert (opsForParent tableUneven 1
        (rowsNormalizeOps optsStd tableUnevenDiag 50)) = true := by
  have hnd : (keysOf tableUneven).Nodup := by decide
  exact ⟨hnd, (removals_before_insertions optsStd tableUneven 50 1 hnd).2 tableUnevenDiag rfl⟩

/-- C10 witness: a table with one paragraph child gets no repair from the
pipeline. -/
theorem pipeline_skips_rowless_table_witness :
    (tableOnePara.nodes ≠ [] ∧ ∀ c ∈ tableOnePara.nodes, c.type ≠ optsStd.typeRow)
    ∧ validateNode optsStd 100 tableOnePara = .ok none := by
  have h1 : tableOnePara.nodes ≠ [] := by
    intro h
    cases h
  have h2 : ∀ c ∈ tableOnePara.nodes, c.type ≠ optsStd.typeRow := by
    intro c hc
    rcases List.mem_singleton.mp hc with rfl
    decide
  exact ⟨⟨h1, h2⟩, (pipeline_skips_rowless_table optsStd 100 tableOnePara h1 h2).2.2⟩

end SlateEditTable
